import Mathlib

/-!
Verification of the llm-autotranslate reconciliation engine.

This file gives a shallow embedding, in Lean 4, of the core synchronization
pipeline of the repository (src/index.ts variant with deferred writes,
src/csv.ts, src/hash.ts) and proves or refutes the frozen claims about it.

Modelling conventions:
- JavaScript `Map` objects are modelled as association lists with the exact
  `set`/`get` behaviour of ECMAScript Maps (insert-or-overwrite keeping the
  original position; lookup of the stored value).
- The OpenAI-backed `Translator` class is an external collaborator; it is
  modelled as a pair of fallible functions (`Except`), exactly the shape the
  pipeline consumes.  Backend invocations are recorded in an explicit call
  trace so that claims about which calls are made can be stated.
- `Array.prototype.sort` with the comparator `(a, b) => a.key.localeCompare(b.key)`
  is modelled as a stable sort parameterised by the comparator; ECMA-402 makes
  `localeCompare` with no locale argument depend on the host environment's
  default locale, so the comparator is a parameter of the model.
- File reads/writes are lifted to explicit inputs (the record list a read
  would produce) and outputs (a list of write actions).
-/

/-! ### Content hasher (src/hash.ts)

`calculateHash` combines `text + '|' + description` and hashes the UTF-8
bytes with XXH32 (the `xxhashjs` dependency, `XXH.h32`), seed `0xabcd`,
then renders the 32-bit result as zero-padded lowercase hex. The XXH32
algorithm below is the reference 32-bit xxHash, as implemented by xxhashjs.
-/

def M32 : Nat := 4294967296

def PRIME32_1 : Nat := 2654435761

def PRIME32_2 : Nat := 2246822519

def PRIME32_3 : Nat := 3266489917

def PRIME32_4 : Nat := 668265263

def PRIME32_5 : Nat := 374761393

def add32 (a b : Nat) : Nat := (a + b) % M32

def mul32 (a b : Nat) : Nat := (a * b) % M32

/-- Left-rotation of a 32-bit value (the argument is reduced mod 2^32). -/
def rotl32 (x r : Nat) : Nat :=
  (((x % M32) <<< r) % M32) ||| ((x % M32) >>> (32 - r))

/-- Little-endian 32-bit word from four bytes. -/
def le32 (b0 b1 b2 b3 : Nat) : Nat :=
  b0 + b1 * 256 + b2 * 65536 + b3 * 16777216

/-- One XXH32 accumulator round. -/
def xxh32Round (acc lane : Nat) : Nat :=
  mul32 (rotl32 (add32 acc (mul32 lane PRIME32_2)) 13) PRIME32_1

/-- Consume 16-byte stripes while at least 16 bytes remain, updating the four
accumulators; returns the accumulators and the unconsumed tail. -/
def xxh32Stripes (v1 v2 v3 v4 : Nat) :
    List Nat → Nat × Nat × Nat × Nat × List Nat
  | b0 :: b1 :: b2 :: b3 :: b4 :: b5 :: b6 :: b7 ::
    b8 :: b9 :: b10 :: b11 :: b12 :: b13 :: b14 :: b15 :: rest =>
      xxh32Stripes
        (xxh32Round v1 (le32 b0 b1 b2 b3))
        (xxh32Round v2 (le32 b4 b5 b6 b7))
        (xxh32Round v3 (le32 b8 b9 b10 b11))
        (xxh32Round v4 (le32 b12 b13 b14 b15))
        rest
  | l => (v1, v2, v3, v4, l)

/-- Finalisation over the remaining bytes: 4-byte words first, then single
bytes, exactly as in XXH32. -/
def xxh32Tail (h : Nat) : List Nat → Nat
  | b0 :: b1 :: b2 :: b3 :: rest =>
      xxh32Tail (mul32 (rotl32 (add32 h (mul32 (le32 b0 b1 b2 b3) PRIME32_3)) 17) PRIME32_4) rest
  | b :: rest =>
      xxh32Tail (mul32 (rotl32 (add32 h (mul32 b PRIME32_5)) 11) PRIME32_1) rest
  | [] => h

/-- XXH32 avalanche mix. -/
def xxh32Avalanche (h0 : Nat) : Nat :=
  let h1 := mul32 (h0 ^^^ (h0 >>> 15)) PRIME32_2
  let h2 := mul32 (h1 ^^^ (h1 >>> 13)) PRIME32_3
  h2 ^^^ (h2 >>> 16)

/-- XXH32 of a byte sequence with the given seed. -/
def xxh32 (bytes : List Nat) (seed : Nat) : Nat :=
  let len := bytes.length
  let h :=
    if 16 ≤ len then
      let s := xxh32Stripes
        (add32 seed (add32 PRIME32_1 PRIME32_2))
        (add32 seed PRIME32_2)
        (seed % M32)
        ((seed % M32 + M32 - PRIME32_1) % M32)
        bytes
      add32 (add32 (add32 (rotl32 s.1 1) (rotl32 s.2.1 7))
        (add32 (rotl32 s.2.2.1 12) (rotl32 s.2.2.2.1 18))) len
    else
      add32 (add32 seed PRIME32_5) len
  let rest := if 16 ≤ len then (xxh32Stripes 0 0 0 0 bytes).2.2.2.2 else bytes
  xxh32Avalanche (xxh32Tail h rest)

/-- UTF-8 encoding of one character (scalar value), as xxhashjs performs on
JavaScript string input. -/
def utf8Bytes (c : Char) : List Nat :=
  let n := c.toNat
  if n < 128 then [n]
  else if n < 2048 then [192 + n / 64, 128 + n % 64]
  else if n < 65536 then [224 + n / 4096, 128 + (n / 64) % 64, 128 + n % 64]
  else [240 + n / 262144, 128 + (n / 4096) % 64, 128 + (n / 64) % 64, 128 + n % 64]

/-- UTF-8 bytes of a string. -/
def strBytes (s : String) : List Nat :=
  (s.data.map utf8Bytes).flatten

/-- `n.toString(16).padStart(8, '0')`: lowercase hex, zero-padded to 8 chars. -/
def toHex8 (n : Nat) : String :=
  let s := String.mk (Nat.toDigits 16 n)
  String.mk (List.replicate (8 - s.length) '0') ++ s

/-- `calculateHash` from src/hash.ts: combines text and description with a
pipe separator and hashes with XXH32, seed 0xabcd. -/
def calculateHash (text : String) (description : String) : String :=
  let combined := text ++ "|" ++ description
  toHex8 (xxh32 (strBytes combined) 43981)

/-! ### Record shapes (src/csv.ts, src/records.ts) -/

structure SourceRecord where
  key : String
  text : String
  description : String
  hash : String
deriving DecidableEq, Repr

structure TargetRecord where
  key : String
  text : String
  hash : String
deriving DecidableEq, Repr


/-! ### JavaScript Map model

`Map.set` updates an existing entry in place (keeping its position) or
appends a new entry; `Map.get` returns the stored value.  Modelled on
association lists. -/

def mapSet {α : Type} (m : List (String × α)) (k : String) (v : α) :
    List (String × α) :=
  if m.any (fun p => p.1 == k) then
    m.map (fun p => if p.1 == k then (k, v) else p)
  else
    m ++ [(k, v)]

def mapGet {α : Type} (m : List (String × α)) (k : String) : Option α :=
  (m.find? (fun p => p.1 == k)).map (fun p => p.2)
def buildMapBy {α : Type} (key : α → String) (rs : List α) :
    List (String × α) :=
  rs.foldl (fun m r => mapSet m (key r) r) []


/-! ### Reconciler (identifyTranslationCandidates, readAndFilterExistingRecords,
preserveExistingTranslations from src/index.ts) -/

structure TranslationCandidate where
  key : String
  sourceRecord : SourceRecord
deriving DecidableEq, Repr

/-- Build the `sourceMap` as the run coordinator does:
`for (const record of sourceRecords) sourceMap.set(record.key, record)`. -/
def buildSourceMap (rs : List SourceRecord) : List (String × SourceRecord) :=
  buildMapBy (fun r => r.key) rs

/-- Build the `existingMap` as `readAndFilterExistingRecords` does. -/
def buildTargetMap (rs : List TargetRecord) : List (String × TargetRecord) :=
  buildMapBy (fun r => r.key) rs

/-- The staleness test of `identifyTranslationCandidates`:
`!existingRecord || sourceRecord.hash !== existingRecord.hash`. -/
def shouldTranslate (existingMap : List (String × TargetRecord)) (k : String)
    (sr : SourceRecord) : Bool :=
  match mapGet existingMap k with
  | none => true
  | some er => sr.hash != er.hash

/-- The candidate pass: iterate `sourceMap` in insertion order and keep the
keys whose existing record is absent or hash-stale. -/
def identifyTranslationCandidates (sourceMap : List (String × SourceRecord))
    (existingMap : List (String × TargetRecord)) : List TranslationCandidate :=
  (sourceMap.filter (fun p => shouldTranslate existingMap p.1 p.2)).map
    (fun p => ⟨p.1, p.2⟩)

/-- The removal pass of `readAndFilterExistingRecords`: keep only records
whose key is a current source key. -/
def filterValidRecords (sourceMap : List (String × SourceRecord))
    (existingRecords : List TargetRecord) : List TargetRecord :=
  existingRecords.filter (fun r => (mapGet sourceMap r.key).isSome)

/-- `removedCount` of `readAndFilterExistingRecords`: how many existing
records were dropped by the removal pass. -/
def removedCountOf (sourceMap : List (String × SourceRecord))
    (existingRecords : List TargetRecord) : Nat :=
  (existingRecords.filter (fun r => !(mapGet sourceMap r.key).isSome)).length

/-- `preserveExistingTranslations`: keep the filtered existing records whose
stored hash still matches the current source hash. -/
def preserveExistingTranslations (filteredExisting : List TargetRecord)
    (sourceMap : List (String × SourceRecord)) : List TargetRecord :=
  filteredExisting.filter (fun r =>
    match mapGet sourceMap r.key with
    | some sr => sr.hash == r.hash
    | none => false)


/-! ### Batch translation driver (translateIndividually, translateInBatches,
executeTranslations from src/index.ts)

The `Translator` backend (src/translator.ts, an OpenAI wrapper) is an
external collaborator; it is modelled as two fallible functions. A batch
result is a JavaScript `Map<key, translation>` (unique keys), modelled as an
association list read through `mapGet`.  Each backend invocation performed
by the driver is recorded in a `BackendCall` trace. -/

inductive TrError where
  | backend (msg : String)
  | missingSourceRecord (key : String)
deriving DecidableEq, Repr

structure BatchTranslationRequest where
  key : String
  text : String
  description : String
deriving DecidableEq, Repr

structure Translator where
  translate : String → String → Except TrError String
  translateBatch : List BatchTranslationRequest →
    Except TrError (List (String × String))

inductive BackendCall where
  | single (text description : String)
  | batch (requests : List BatchTranslationRequest)
deriving DecidableEq, Repr

/-- `translateIndividually`: translate each candidate with `translate`,
propagating the first error; each record copies its source record's hash. -/
def translateIndividually (tr : Translator) :
    List TranslationCandidate → Except TrError (List TargetRecord × List BackendCall)
  | [] => .ok ([], [])
  | c :: rest =>
    match tr.translate c.sourceRecord.text c.sourceRecord.description with
    | .error e => .error e
    | .ok translatedText =>
      match translateIndividually tr rest with
      | .error e => .error e
      | .ok (recs, calls) =>
        .ok (⟨c.key, translatedText, c.sourceRecord.hash⟩ :: recs,
          .single c.sourceRecord.text c.sourceRecord.description :: calls)

/-- The `{key, text: sourceRecord.text, description: sourceRecord.description}`
payload built for each batch member. -/
def toBatchRequest (c : TranslationCandidate) : BatchTranslationRequest :=
  ⟨c.key, c.sourceRecord.text, c.sourceRecord.description⟩

/-- The success loop over one chunk: look each candidate's key up in the
returned map; `if (!translatedText) throw` treats a missing key or an empty
string as a failure, which the surrounding catch turns into the fallback.
Returns the records pushed before any such failure, and whether the loop
failed (records pushed before the failure are kept - the JS `newRecords`
array is not rolled back). -/
def collectBatchRecords : List TranslationCandidate → List (String × String) →
    List TargetRecord × Bool
  | [], _ => ([], false)
  | c :: rest, translations =>
    match mapGet translations c.key with
    | none => ([], true)
    | some t =>
      if t == "" then ([], true)
      else
        let (recs, failed) := collectBatchRecords rest translations
        (⟨c.key, t, c.sourceRecord.hash⟩ :: recs, failed)

/-- The catch block of `translateInBatches`: re-translate every item of the
failed chunk individually; the source record is recovered by
`candidates.find((s) => s.key === key)`; any failure propagates. -/
def runFallback (tr : Translator) (candidates : List TranslationCandidate) :
    List BatchTranslationRequest → Except TrError (List TargetRecord × List BackendCall)
  | [] => .ok ([], [])
  | req :: rest =>
    match candidates.find? (fun s => s.key == req.key) with
    | none => .error (.missingSourceRecord req.key)
    | some c =>
      match tr.translate req.text req.description with
      | .error e => .error e
      | .ok t =>
        match runFallback tr candidates rest with
        | .error e => .error e
        | .ok (recs, calls) =>
          .ok (⟨req.key, t, c.sourceRecord.hash⟩ :: recs,
            .single req.text req.description :: calls)

/-- One iteration of the batch loop: try `translateBatch`; on an exception
or on a missing/empty translation fall back to individual translation of the
whole chunk, keeping any records already pushed by the success loop. -/
def runChunk (tr : Translator) (candidates chunk : List TranslationCandidate) :
    Except TrError (List TargetRecord × List BackendCall) :=
  let reqs := chunk.map toBatchRequest
  match tr.translateBatch reqs with
  | .error _ =>
    match runFallback tr candidates reqs with
    | .error e => .error e
    | .ok (recs, calls) => .ok (recs, .batch reqs :: calls)
  | .ok translations =>
    let (recs, failed) := collectBatchRecords chunk translations
    if failed then
      match runFallback tr candidates reqs with
      | .error e => .error e
      | .ok (frecs, calls) => .ok (recs ++ frecs, .batch reqs :: calls)
    else .ok (recs, [.batch reqs])

/-- The batch loop of `translateInBatches` over consecutive chunks of at
most `batchSize` candidates (defined for `batchSize ≥ 1`; the config
validator rejects smaller values). -/
def translateInBatchesAux (tr : Translator) (candidates : List TranslationCandidate)
    (batchSize : Nat) :
    List TranslationCandidate → Except TrError (List TargetRecord × List BackendCall)
  | [] => .ok ([], [])
  | c :: rest =>
    match runChunk tr candidates (c :: rest.take (batchSize - 1)) with
    | .error e => .error e
    | .ok (recs, calls) =>
      match translateInBatchesAux tr candidates batchSize (rest.drop (batchSize - 1)) with
      | .error e => .error e
      | .ok (recs', calls') => .ok (recs ++ recs', calls ++ calls')
termination_by l => l.length
decreasing_by
  simp only [List.length_cons, List.length_drop]
  omega

def translateInBatches (tr : Translator) (batchSize : Nat)
    (candidates : List TranslationCandidate) :
    Except TrError (List TargetRecord × List BackendCall) :=
  translateInBatchesAux tr candidates batchSize candidates

/-- `executeTranslations`: batch size 1 selects the individual path. -/
def executeTranslations (tr : Translator) (batchSize : Nat)
    (candidates : List TranslationCandidate) :
    Except TrError (List TargetRecord × List BackendCall) :=
  if batchSize = 1 then translateIndividually tr candidates
  else translateInBatches tr batchSize candidates

/-- The chunking performed by `candidates.slice(i, i + batchSize)` for
`i = 0, batchSize, 2*batchSize, ...` (defined for `batchSize ≥ 1`). -/
def chunkList {α : Type} (batchSize : Nat) : List α → List (List α)
  | [] => []
  | c :: rest => (c :: rest.take (batchSize - 1)) :: chunkList batchSize (rest.drop (batchSize - 1))
termination_by l => l.length
decreasing_by
  simp only [List.length_cons, List.length_drop]
  omega

/-! ### Target pipeline orchestrator (processTargetLanguage from src/index.ts) -/

structure OutputSpec where
  file : String
  format : String
deriving DecidableEq, Repr

structure TargetLanguageConfig where
  language : String
  file : String
  outputs : List OutputSpec
deriving DecidableEq, Repr

structure ProcessingResult where
  target : TargetLanguageConfig
  updatedRecords : List TargetRecord
  hasChanges : Bool
deriving DecidableEq, Repr

/-- `updatedRecords.sort((a, b) => a.key.localeCompare(b.key))`: a stable
sort driven by `localeCompare`.  ECMA-402 makes `localeCompare` with no
locale argument collate by the host environment's default locale, so the
comparator `cmp` is a parameter of the model. -/
def sortByKeyCmp (cmp : String → String → Int) (rs : List TargetRecord) :
    List TargetRecord :=
  List.insertionSort (fun a b => cmp a.key b.key ≤ 0) rs

/-- `processTargetLanguage` (deferred-write variant): reading the target
file is lifted to the `existingRecords` argument, the translator instance to
`tr`, and the host collation to `cmp`.  Returns the processing result and
the trace of backend calls made. -/
def processTargetLanguage (target : TargetLanguageConfig)
    (sourceMap : List (String × SourceRecord)) (existingRecords : List TargetRecord)
    (tr : Translator) (cmp : String → String → Int) (batchSize : Nat) :
    Except TrError (ProcessingResult × List BackendCall) :=
  let existingMap := buildTargetMap existingRecords
  let filteredExisting := filterValidRecords sourceMap existingRecords
  let removedCount := removedCountOf sourceMap existingRecords
  let candidates := identifyTranslationCandidates sourceMap existingMap
  if candidates.length = 0 ∧ removedCount = 0 then
    .ok (⟨target, preserveExistingTranslations filteredExisting sourceMap, false⟩, [])
  else
    let updatedRecords := preserveExistingTranslations filteredExisting sourceMap
    match (if 0 < candidates.length then executeTranslations tr batchSize candidates
      else .ok ([], [])) with
    | .error e => .error e
    | .ok (newTranslations, calls) =>
      .ok (⟨target, sortByKeyCmp cmp (updatedRecords ++ newTranslations), true⟩, calls)

/-! ### File writes (executeAllFileWrites, executeTargetOutputFiles,
executeSourceOutputFiles from src/index.ts)

Writes are modelled as explicit `WriteAction` values; `reg` models
`outputRegistry.get` (an unknown format is logged and skipped). -/

structure StringRecord where
  key : String
  text : String
  description : Option String
deriving DecidableEq, Repr

inductive WriteAction where
  | writeTarget (file : String) (records : List TargetRecord)
  | writeOutput (file : String) (content : String)
deriving DecidableEq, Repr

/-- The first loop of `executeAllFileWrites`: write the target file only
when the result has changes. -/
def targetWriteActions (result : ProcessingResult) : List WriteAction :=
  if result.hasChanges then
    [.writeTarget result.target.file result.updatedRecords]
  else []

/-- Target records carried to output formatters with
`description: undefined`. -/
def toTargetStringRecords (records : List TargetRecord) : List StringRecord :=
  records.map (fun r => ⟨r.key, r.text, none⟩)

/-- `executeTargetOutputFiles`: format and write each configured secondary
output; an unknown format is skipped. -/
def executeTargetOutputFiles (reg : String → Option (List StringRecord → String))
    (outputs : List OutputSpec) (records : List TargetRecord) : List WriteAction :=
  outputs.filterMap (fun o =>
    (reg o.format).map (fun fmt =>
      .writeOutput o.file (fmt (toTargetStringRecords records))))

/-- The second loop of `executeAllFileWrites`: regenerate a result's
secondary outputs only when `result.hasChanges` is true (the code's comment
promises a missing-file backfill, but no existence check is performed). -/
def outputWriteActions (reg : String → Option (List StringRecord → String))
    (result : ProcessingResult) : List WriteAction :=
  if 0 < result.target.outputs.length then
    if result.hasChanges then
      executeTargetOutputFiles reg result.target.outputs result.updatedRecords
    else []
  else []

/-- `executeAllFileWrites`: all target-file writes, then all secondary
output writes. -/
def executeAllFileWrites (reg : String → Option (List StringRecord → String))
    (results : List ProcessingResult) : List WriteAction :=
  (results.map targetWriteActions).flatten ++
    (results.map (outputWriteActions reg)).flatten

/-- Source records carried to output formatters keep their description. -/
def toSourceStringRecords (records : List SourceRecord) : List StringRecord :=
  records.map (fun r => ⟨r.key, r.text, some r.description⟩)

/-- `executeSourceOutputFiles`: unconditional source-side outputs. -/
def executeSourceOutputFiles (reg : String → Option (List StringRecord → String))
    (sourceOutputs : List OutputSpec) (sourceRecords : List SourceRecord) :
    List WriteAction :=
  sourceOutputs.filterMap (fun o =>
    (reg o.format).map (fun fmt =>
      .writeOutput o.file (fmt (toSourceStringRecords sourceRecords))))

/-! ### Run coordinator (autotranslate from src/index.ts) -/

/-- An observable event of one run: a target language's pipeline finishing
its computation (with the backend calls it made), or a file write. -/
inductive RunEvent where
  | compute (language : String) (calls : List BackendCall)
  | write (action : WriteAction)
deriving DecidableEq, Repr

/-- The `Promise.all` fan-out: every target language's pipeline is computed
(concurrently in the source; the computations are independent and produce no
writes, so any interleaving yields these per-language results). -/
def processAllTargets (sourceMap : List (String × SourceRecord))
    (trFor : String → Translator) (cmp : String → String → Int) (batchSize : Nat) :
    List (TargetLanguageConfig × List TargetRecord) →
      Except TrError (List (ProcessingResult × List BackendCall))
  | [] => .ok []
  | (target, existing) :: rest =>
    match processTargetLanguage target sourceMap existing (trFor target.language)
        cmp batchSize with
    | .error e => .error e
    | .ok rc =>
      match processAllTargets sourceMap trFor cmp batchSize rest with
      | .error e => .error e
      | .ok rcs => .ok (rc :: rcs)

/-- `autotranslate`: read the source once, compute every target language's
result (`await Promise.all`), then perform the source-output writes and all
deferred file writes.  The event list records computations and writes in
program order. -/
def autotranslate (sourceOutputs : List OutputSpec) (sourceRecords : List SourceRecord)
    (targets : List (TargetLanguageConfig × List TargetRecord))
    (trFor : String → Translator) (cmp : String → String → Int) (batchSize : Nat)
    (reg : String → Option (List StringRecord → String)) :
    Except TrError (List RunEvent) :=
  let sourceMap := buildSourceMap sourceRecords
  match processAllTargets sourceMap trFor cmp batchSize targets with
  | .error e => .error e
  | .ok results =>
    .ok ((results.map (fun rc => RunEvent.compute rc.1.target.language rc.2))
      ++ (executeSourceOutputFiles reg sourceOutputs sourceRecords).map .write
      ++ (executeAllFileWrites reg (results.map (fun rc => rc.1))).map .write)

/-! ### Target CSV round trip (readTargetCsv, writeTargetCsv from src/csv.ts) -/

/-- ECMAScript WhiteSpace / LineTerminator characters, as removed by
`String.prototype.trim` (the common members; the model only needs that the
set contains no CSV field content characters). -/
def jsWhitespace (c : Char) : Bool :=
  c == ' ' || c == '\t' || c == '\n' || c == '\r' ||
    c == '\x0b' || c == '\x0c' || c == '\u00A0' || c == '\uFEFF'

/-- JavaScript `value.trim()`: strip leading and trailing whitespace. -/
def jsTrim (s : String) : String :=
  String.mk (((s.data.dropWhile jsWhitespace).reverse.dropWhile jsWhitespace).reverse)

/-- The row mapping of `readTargetCsv` applied to a row previously written
by `writeTargetCsv`: every column value is trimmed
(`(chunk[name] || '').trim()`) and a row whose key or text trims to the
empty string is skipped (`if (!key || !text) return null`). -/
def readTargetCsvRow (r : TargetRecord) : Option TargetRecord :=
  if jsTrim r.key == "" || jsTrim r.text == "" then none
  else some ⟨jsTrim r.key, jsTrim r.text, jsTrim r.hash⟩

/-- Reading back the target CSV file written from `records`. -/
def readTargetCsvBack (records : List TargetRecord) : List TargetRecord :=
  records.filterMap readTargetCsvRow

/-! ### Host collations and witness backends -/

/-- Lexicographic (code-point) comparison of character sequences. -/
def charListLt : List Char → List Char → Bool
  | [], [] => false
  | [], _ :: _ => true
  | _ :: _, [] => false
  | a :: as, b :: bs =>
    if a.toNat < b.toNat then true
    else if b.toNat < a.toNat then false
    else charListLt as bs

/-- Code-unit lexicographic comparator (the collation of a host running
under the POSIX/C default locale). -/
def cmpCodeUnit (a b : String) : Int :=
  if charListLt a.data b.data then -1
  else if charListLt b.data a.data then 1
  else 0

/-- ASCII lowercasing of one character. -/
def asciiToLower (c : Char) : Char :=
  if 65 ≤ c.toNat ∧ c.toNat ≤ 90 then Char.ofNat (c.toNat + 32) else c

/-- A case-grouping collation in the style of Unicode-collation locales
(e.g. a host with an `en` default locale), where "a" sorts before "B":
case-folded comparison first, ties broken by code units. -/
def cmpCaseFirst (a b : String) : Int :=
  if charListLt (a.data.map asciiToLower) (b.data.map asciiToLower) then -1
  else if charListLt (b.data.map asciiToLower) (a.data.map asciiToLower) then 1
  else if charListLt a.data b.data then -1
  else if charListLt b.data a.data then 1
  else 0

/-- Modelled from the spec's words, for comparison with the implementation:
"target records are sorted by key (lexicographic, locale-stable simple
ordering)" - plain code-unit sorting of keys, independent of any host
collation. -/
def sortByKeyLexSpec (rs : List TargetRecord) : List TargetRecord :=
  List.insertionSort (fun a b : TargetRecord => charListLt b.key.data a.key.data = false) rs

deriving instance DecidableEq for Except

/-- A backend whose every call fails. -/
def errTranslator : Translator :=
  ⟨fun _ _ => .error (.backend "down"), fun _ => .error (.backend "down")⟩

/-- A backend that translates `t` to `f t d` and whose batch results agree
with its individual results. -/
def okTranslator (f : String → String → String) : Translator :=
  ⟨fun t d => .ok (f t d),
   fun reqs => .ok (reqs.map (fun r => (r.key, f r.text r.description)))⟩

/-- A backend whose batch endpoint always fails but whose individual
endpoint translates `t` to `t ++ "!"`. -/
def batchFailTranslator : Translator :=
  ⟨fun t _ => .ok (t ++ "!"), fun _ => .error (.backend "batch boom")⟩

/-- A backend that translates everything to a single space.  The real
Translator rejects only falsy results (`!parsed.translation`), so a
whitespace-only translation is a possible backend output. -/
def blankTranslator : Translator :=
  ⟨fun _ _ => .ok " ", fun reqs => .ok (reqs.map (fun r => (r.key, " ")))⟩

/-- A backend whose batch endpoint fails exactly on two-request batches and
otherwise agrees with its individual endpoint (`t ++ "!"`). -/
def mixedBatchTranslator : Translator :=
  ⟨fun t _ => .ok (t ++ "!"),
   fun reqs => if reqs.length = 2 then .error (.backend "boom")
     else .ok (reqs.map (fun r => (r.key, r.text ++ "!")))⟩


/-! ### Statement predicates for the batch/fallback behaviour -/

/-- A batch call on this chunk succeeds and satisfies the driver's
in-loop check: the returned map holds a nonempty translation for every
member of the chunk. -/
def batchCallSucceeds (tr : Translator) (chunk : List TranslationCandidate) : Prop :=
  ∃ m, tr.translateBatch (chunk.map toBatchRequest) = .ok m ∧
    ∀ c ∈ chunk, ∃ t, mapGet m c.key = some t ∧ t ≠ ""

/-- A batch call on this chunk throws, or returns a map that omits (or maps
to the empty string, which `!translatedText` also treats as missing) some
requested key. -/
def batchCallFails (tr : Translator) (chunk : List TranslationCandidate) : Prop :=
  (∃ e, tr.translateBatch (chunk.map toBatchRequest) = .error e) ∨
  (∃ m, tr.translateBatch (chunk.map toBatchRequest) = .ok m ∧
    ∃ c ∈ chunk, mapGet m c.key = none ∨ mapGet m c.key = some "")

/-- The backend-call trace of a run in which every chunk's batch call
succeeds: one batch call per chunk, no individual calls. -/
def successTrace (chunks : List (List TranslationCandidate)) : List BackendCall :=
  chunks.map (fun ch => .batch (ch.map toBatchRequest))

/-- The backend-call trace of a run in which exactly the chunk at index `j`
falls back: every chunk contributes its batch call, and the failing chunk
additionally contributes one individual call per member. -/
def fallbackTrace (j : Nat) : List (List TranslationCandidate) → List BackendCall
  | [] => []
  | ch :: rest =>
    match j with
    | 0 => (.batch (ch.map toBatchRequest)
        :: ch.map (fun c => .single c.sourceRecord.text c.sourceRecord.description))
        ++ successTrace rest
    | j' + 1 => .batch (ch.map toBatchRequest) :: fallbackTrace j' rest

/-! ### Theorems -/

/-- A sanity check that the hash factors through the combined string. -/
theorem calculateHash_eq (t d : String) :
    calculateHash t d = toHex8 (xxh32 (strBytes (t ++ "|" ++ d)) 43981) := rfl

/-- C10: `calculateHash(a, b + "|" + c) = calculateHash(a + "|" + b, c)` for
all strings `a b c` — the hash depends only on the concatenated string
`text + "|" + description`, so any two (text, description) pairs with the
same combined string collide, in particular pairs where content moves across
the field boundary through a pipe character. -/
theorem calculateHash_pipe_shift (a b c : String) :
    calculateHash a (b ++ "|" ++ c) = calculateHash (a ++ "|" ++ b) c ∧
    (∀ t d t' d' : String, t ++ "|" ++ d = t' ++ "|" ++ d' →
      calculateHash t d = calculateHash t' d') := by
  constructor
  · show toHex8 (xxh32 (strBytes (a ++ "|" ++ (b ++ "|" ++ c))) 43981)
      = toHex8 (xxh32 (strBytes ((a ++ "|" ++ b) ++ "|" ++ c)) 43981)
    have h : a ++ "|" ++ (b ++ "|" ++ c) = (a ++ "|" ++ b) ++ "|" ++ c := by
      simp [String.append_assoc]
    rw [h]
  · intro t d t' d' h
    show toHex8 (xxh32 (strBytes (t ++ "|" ++ d)) 43981)
      = toHex8 (xxh32 (strBytes (t' ++ "|" ++ d')) 43981)
    rw [h]

/-- Witness for C10 at concrete inputs. -/
theorem calculateHash_pipe_shift_witness :
    calculateHash "x" ("y" ++ "|" ++ "z") = calculateHash ("x" ++ "|" ++ "y") "z" ∧
    ("a|b" ++ "|" ++ "c" = "a" ++ "|" ++ "b|c" ∧
      calculateHash "a|b" "c" = calculateHash "a" "b|c") :=
  ⟨(calculateHash_pipe_shift "x" "y" "z").1,
    by decide,
    (calculateHash_pipe_shift "x" "y" "z").2 "a|b" "c" "a" "b|c" (by decide)⟩

theorem find?_cons {α : Type} (f : α → Bool) (a : α) (l : List α) :
    (a :: l).find? f = if f a then some a else l.find? f := by
  rcases h : f a with _ | _
  · simp [List.find?, h]
  · simp [List.find?, h]

theorem mapGet_nil {α : Type} (k : String) : mapGet ([] : List (String × α)) k = none := rfl

theorem mapGet_cons {α : Type} (p : String × α) (m : List (String × α)) (k : String) :
    mapGet (p :: m) k = if p.1 == k then some p.2 else mapGet m k := by
  rcases h : (p.1 == k) with _ | _
  · simp [mapGet, find?_cons, h]
  · simp [mapGet, find?_cons, h]

theorem mapGet_mapSet_self {α : Type} (m : List (String × α)) (k : String) (v : α) :
    mapGet (mapSet m k v) k = some v := by
  induction m with
  | nil => simp [mapSet, mapGet]
  | cons p rest ih =>
    rcases hp : (p.1 == k) with _ | _
    · rcases hr : (rest.any fun q => q.1 == k) with _ | _
      · simp only [mapSet, List.any_cons, hp, hr, Bool.or_self, Bool.false_eq_true,
          if_false] at ih ⊢
        rw [List.cons_append, mapGet_cons, if_neg (by simp [hp])]
        exact ih
      · simp only [mapSet, List.any_cons, hp, hr, Bool.false_or, if_true] at ih ⊢
        rw [List.map_cons, if_neg (by simp [hp] : ¬ (p.1 == k) = true),
          mapGet_cons, if_neg (by simp [hp])]
        exact ih
    · have hany : ((p :: rest).any fun q => q.1 == k) = true := by simp [hp]
      simp only [mapSet, hany, if_true, List.map_cons, hp, if_true]
      rw [mapGet_cons, if_pos (by simp)]

theorem mapGet_mapSet_ne {α : Type} (m : List (String × α)) (k k' : String) (v : α)
    (hne : k' ≠ k) : mapGet (mapSet m k v) k' = mapGet m k' := by
  induction m with
  | nil =>
    simp only [mapSet, List.any_nil, Bool.false_eq_true, if_false, List.nil_append]
    rw [mapGet_cons, if_neg (by simp [Ne.symm hne])]
  | cons p rest ih =>
    rcases hp : (p.1 == k) with _ | _
    · rcases hr : (rest.any fun q => q.1 == k) with _ | _
      · simp only [mapSet, List.any_cons, hp, hr, Bool.or_self, Bool.false_eq_true,
          if_false] at ih ⊢
        rw [List.cons_append, mapGet_cons, mapGet_cons]
        rcases hp' : (p.1 == k') with _ | _
        · simp only [Bool.false_eq_true, if_false]
          exact ih
        · simp
      · simp only [mapSet, List.any_cons, hp, hr, Bool.false_or, if_true] at ih ⊢
        rw [List.map_cons, if_neg (by simp [hp] : ¬ (p.1 == k) = true),
          mapGet_cons, mapGet_cons]
        rcases hp' : (p.1 == k') with _ | _
        · simp only [Bool.false_eq_true, if_false]
          exact ih
        · simp
    · have hany : ((p :: rest).any fun q => q.1 == k) = true := by simp [hp]
      have hpk : p.1 = k := by simpa using hp
      have hp'' : (p.1 == k') = false := by simp [hpk, Ne.symm hne]
      simp only [mapSet, hany, if_true, List.map_cons, hp, if_true]
      rw [mapGet_cons, if_neg (by simp [Ne.symm hne]), mapGet_cons,
        if_neg (by simp [hp''])]
      rcases hr : (rest.any fun q => q.1 == k) with _ | _
      · have hrw : (rest.map fun p => if p.1 == k then (k, v) else p) = rest := by
          conv_rhs => rw [← List.map_id rest]
          apply List.map_congr_left
          intro q hq
          have hq' : (q.1 == k) = false := by
            rcases h : (q.1 == k) with _ | _
            · rfl
            · exfalso
              have hc : (rest.any fun q => q.1 == k) = true :=
                List.any_eq_true.mpr ⟨q, hq, h⟩
              rw [hr] at hc
              exact Bool.false_ne_true hc
          simp [hq']
        rw [hrw]
      · have := ih
        simp only [mapSet, hr, if_true] at this
        exact this


theorem buildMapBy_append {α : Type} (key : α → String) (rs : List α) (r : α) :
    buildMapBy key (rs ++ [r]) = mapSet (buildMapBy key rs) (key r) r := by
  unfold buildMapBy
  rw [List.foldl_append]
  rfl

theorem mapGet_buildMapBy {α : Type} (key : α → String) (rs : List α) (k : String) :
    mapGet (buildMapBy key rs) k = rs.reverse.find? (fun r => key r == k) := by
  induction rs using List.reverseRecOn with
  | nil => simp [buildMapBy, mapGet]
  | append_singleton rs r ih =>
    rw [buildMapBy_append, List.reverse_append]
    by_cases hk : key r = k
    · subst hk
      rw [mapGet_mapSet_self]
      simp [find?_cons]
    · rw [mapGet_mapSet_ne _ _ _ _ (Ne.symm hk)]
      simp only [List.reverse_singleton, List.singleton_append]
      rw [find?_cons, if_neg (by simpa using hk)]
      exact ih

theorem mapGet_buildMapBy_some {α : Type} {key : α → String} {rs : List α}
    {k : String} {v : α} (h : mapGet (buildMapBy key rs) k = some v) :
    v ∈ rs ∧ key v = k := by
  rw [mapGet_buildMapBy] at h
  refine ⟨List.mem_reverse.mp (List.mem_of_find?_eq_some h), ?_⟩
  simpa using List.find?_some h

theorem mapGet_buildMapBy_isSome {α : Type} (key : α → String) (rs : List α)
    (k : String) : (mapGet (buildMapBy key rs) k).isSome ↔ ∃ r ∈ rs, key r = k := by
  rw [mapGet_buildMapBy, List.find?_isSome]
  constructor
  · rintro ⟨r, hr, hk⟩
    exact ⟨r, List.mem_reverse.mp hr, by simpa using hk⟩
  · rintro ⟨r, hr, hk⟩
    exact ⟨r, List.mem_reverse.mpr hr, by simpa using hk⟩

theorem mapGet_some_mem {α : Type} {m : List (String × α)} {k : String} {v : α}
    (h : mapGet m k = some v) : (k, v) ∈ m := by
  induction m with
  | nil => simp [mapGet] at h
  | cons p rest ih =>
    rw [mapGet_cons] at h
    rcases hp : (p.1 == k) with _ | _
    · rw [hp] at h
      simp only [Bool.false_eq_true, if_false] at h
      exact List.mem_cons_of_mem _ (ih h)
    · rw [hp] at h
      simp only [if_true, Option.some.injEq] at h
      have : p = (k, v) := by
        rcases p with ⟨k', v'⟩
        have : k' = k := by simpa using hp
        simp [this, ← h]
      rw [← this]
      exact List.mem_cons_self _ _

theorem keys_mapSet {α : Type} (m : List (String × α)) (k : String) (v : α) :
    (mapSet m k v).map (fun p => p.1) =
      if m.any (fun p => p.1 == k) then m.map (fun p => p.1)
      else m.map (fun p => p.1) ++ [k] := by
  unfold mapSet
  rcases h : m.any (fun p => p.1 == k) with _ | _
  · simp
  · simp only [if_true, List.map_map]
    apply List.map_congr_left
    intro p _
    rcases hp : (p.1 == k) with _ | _
    · have : p.1 ≠ k := by simpa using hp
      simp [this]
    · have : p.1 = k := by simpa using hp
      simp [this]

theorem keysOf_nodup_buildMapBy {α : Type} (key : α → String) (rs : List α) :
    ((buildMapBy key rs).map (fun p => p.1)).Nodup := by
  induction rs using List.reverseRecOn with
  | nil => simp [buildMapBy]
  | append_singleton rs r ih =>
    rw [buildMapBy_append, keys_mapSet]
    rcases h : (buildMapBy key rs).any (fun p => p.1 == key r) with _ | _
    · simp only [Bool.false_eq_true, if_false]
      rw [List.nodup_append]
      refine ⟨ih, List.nodup_singleton _, ?_⟩
      intro a ha hb
      simp only [List.mem_singleton] at hb
      subst hb
      rcases List.mem_map.mp ha with ⟨p, hp, hpk⟩
      have : (buildMapBy key rs).any (fun p => p.1 == key r) = true :=
        List.any_eq_true.mpr ⟨p, hp, by simp [hpk]⟩
      rw [h] at this
      exact Bool.false_ne_true this
    · simp only [if_true]
      exact ih

theorem mem_eq_of_mapGet {α : Type} {m : List (String × α)}
    (hnd : (m.map (fun p => p.1)).Nodup) {k : String} {v w : α}
    (hmem : (k, v) ∈ m) (hget : mapGet m k = some w) : v = w := by
  induction m with
  | nil => simp at hmem
  | cons p rest ih =>
    rw [mapGet_cons] at hget
    rcases hp : (p.1 == k) with _ | _
    · rw [hp] at hget
      simp only [Bool.false_eq_true, if_false] at hget
      rcases List.mem_cons.mp hmem with heq | hmem'
      · exfalso
        have : p.1 = k := by rw [← heq]
        rw [this] at hp
        simp at hp
      · exact ih (List.Nodup.of_cons (by simpa using hnd)) hmem' hget
    · rw [hp] at hget
      simp only [if_true, Option.some.injEq] at hget
      rcases List.mem_cons.mp hmem with heq | hmem'
      · rw [← heq] at hget
        exact hget
      · exfalso
        simp only [List.map_cons, List.nodup_cons] at hnd
        have hk : p.1 = k := by simpa using hp
        exact hnd.1 (by
          rw [hk]
          exact List.mem_map.mpr ⟨(k, v), hmem', rfl⟩)

theorem mem_identifyTranslationCandidates {sourceMap : List (String × SourceRecord)}
    {existingMap : List (String × TargetRecord)} {c : TranslationCandidate} :
    c ∈ identifyTranslationCandidates sourceMap existingMap ↔
      (c.key, c.sourceRecord) ∈ sourceMap ∧
        shouldTranslate existingMap c.key c.sourceRecord = true := by
  unfold identifyTranslationCandidates
  rw [List.mem_map]
  constructor
  · rintro ⟨p, hp, hpc⟩
    rcases List.mem_filter.mp hp with ⟨hmem, hcond⟩
    rcases p with ⟨k', sr'⟩
    cases hpc
    exact ⟨hmem, hcond⟩
  · rintro ⟨hmem, hcond⟩
    exact ⟨(c.key, c.sourceRecord), List.mem_filter.mpr ⟨hmem, hcond⟩, rfl⟩

theorem shouldTranslate_iff (existingMap : List (String × TargetRecord))
    (k : String) (sr : SourceRecord) :
    shouldTranslate existingMap k sr = true ↔
      (mapGet existingMap k = none ∨
        ∃ er, mapGet existingMap k = some er ∧ er.hash ≠ sr.hash) := by
  unfold shouldTranslate
  rcases h : mapGet existingMap k with _ | er
  · simp
  · simp only [h, bne_iff_ne, Option.some.injEq]
    constructor
    · intro hne
      exact Or.inr ⟨er, rfl, Ne.symm hne⟩
    · rintro (hc | ⟨er', her', hne⟩)
      · exact absurd hc (by simp)
      · subst her'
        exact Ne.symm hne

/-- C1: for every key in `sourceMap`, the Reconciler marks the key a
translation candidate iff there is no existing target record for the key or
the existing record's stored hash differs from the source record's hash; a
key whose existing record's hash matches the source hash is preserved
unchanged into the result and is not a candidate; and a key absent from the
existing target records is always a candidate. -/
theorem reconciler_candidate_iff
    (srcs : List SourceRecord) (existing : List TargetRecord)
    (k : String) (sr : SourceRecord)
    (hk : mapGet (buildSourceMap srcs) k = some sr) :
    ((∃ c ∈ identifyTranslationCandidates (buildSourceMap srcs) (buildTargetMap existing),
        c.key = k) ↔
      (mapGet (buildTargetMap existing) k = none ∨
        ∃ er, mapGet (buildTargetMap existing) k = some er ∧ er.hash ≠ sr.hash)) ∧
    (∀ er, mapGet (buildTargetMap existing) k = some er → er.hash = sr.hash →
      er ∈ preserveExistingTranslations
          (filterValidRecords (buildSourceMap srcs) existing) (buildSourceMap srcs) ∧
      ∀ c ∈ identifyTranslationCandidates (buildSourceMap srcs) (buildTargetMap existing),
        c.key ≠ k) ∧
    (mapGet (buildTargetMap existing) k = none →
      ∃ c ∈ identifyTranslationCandidates (buildSourceMap srcs) (buildTargetMap existing),
        c.key = k ∧ c.sourceRecord = sr) := by
  have hnd : ((buildSourceMap srcs).map (fun p => p.1)).Nodup :=
    keysOf_nodup_buildMapBy _ _
  have hmem : (k, sr) ∈ buildSourceMap srcs := mapGet_some_mem hk
  refine ⟨?_, ?_, ?_⟩
  · constructor
    · rintro ⟨c, hc, hck⟩
      rcases mem_identifyTranslationCandidates.mp hc with ⟨hpair, hcond⟩
      rw [hck] at hpair hcond
      have hsr : c.sourceRecord = sr := mem_eq_of_mapGet hnd hpair hk
      rw [hsr] at hcond
      exact (shouldTranslate_iff _ _ _).mp hcond
    · intro h
      exact ⟨⟨k, sr⟩, mem_identifyTranslationCandidates.mpr
        ⟨hmem, (shouldTranslate_iff _ _ _).mpr h⟩, rfl⟩
  · intro er her hhash
    have her2 : mapGet (buildMapBy (fun r => r.key) existing) k = some er := her
    have her' := mapGet_buildMapBy_some her2
    constructor
    · apply List.mem_filter.mpr
      refine ⟨List.mem_filter.mpr ⟨her'.1, by simp [her'.2, hk]⟩, ?_⟩
      simp [her'.2, hk, hhash]
    · intro c hc hck
      rcases mem_identifyTranslationCandidates.mp hc with ⟨hpair, hcond⟩
      rw [hck] at hpair hcond
      have hsr : c.sourceRecord = sr := mem_eq_of_mapGet hnd hpair hk
      rw [hsr] at hcond
      unfold shouldTranslate at hcond
      rw [her] at hcond
      simp only [bne_iff_ne] at hcond
      exact hcond hhash.symm
  · intro hn
    refine ⟨⟨k, sr⟩, mem_identifyTranslationCandidates.mpr ⟨hmem, ?_⟩, rfl, rfl⟩
    unfold shouldTranslate
    rw [hn]

/-- Witness for C1: a matching-hash key is preserved and not a candidate; a
fresh key is a candidate. -/
theorem reconciler_candidate_iff_witness :
    mapGet (buildSourceMap [⟨"k", "A", "d", "h1"⟩, ⟨"n", "B", "", "h2"⟩]) "k"
      = some ⟨"k", "A", "d", "h1"⟩ ∧
    (((∃ c ∈ identifyTranslationCandidates
          (buildSourceMap [⟨"k", "A", "d", "h1"⟩, ⟨"n", "B", "", "h2"⟩])
          (buildTargetMap [⟨"k", "T", "h1"⟩]), c.key = "k") ↔
        (mapGet (buildTargetMap [⟨"k", "T", "h1"⟩]) "k" = none ∨
          ∃ er, mapGet (buildTargetMap [⟨"k", "T", "h1"⟩]) "k" = some er ∧
            er.hash ≠ "h1")) ∧
      (∀ er, mapGet (buildTargetMap [⟨"k", "T", "h1"⟩]) "k" = some er →
        er.hash = "h1" →
        er ∈ preserveExistingTranslations
            (filterValidRecords
              (buildSourceMap [⟨"k", "A", "d", "h1"⟩, ⟨"n", "B", "", "h2"⟩])
              [⟨"k", "T", "h1"⟩])
            (buildSourceMap [⟨"k", "A", "d", "h1"⟩, ⟨"n", "B", "", "h2"⟩]) ∧
        ∀ c ∈ identifyTranslationCandidates
            (buildSourceMap [⟨"k", "A", "d", "h1"⟩, ⟨"n", "B", "", "h2"⟩])
            (buildTargetMap [⟨"k", "T", "h1"⟩]), c.key ≠ "k") ∧
      (mapGet (buildTargetMap [⟨"k", "T", "h1"⟩]) "k" = none →
        ∃ c ∈ identifyTranslationCandidates
            (buildSourceMap [⟨"k", "A", "d", "h1"⟩, ⟨"n", "B", "", "h2"⟩])
            (buildTargetMap [⟨"k", "T", "h1"⟩]),
          c.key = "k" ∧ c.sourceRecord = ⟨"k", "A", "d", "h1"⟩)) :=
  ⟨by decide, reconciler_candidate_iff _ _ "k" ⟨"k", "A", "d", "h1"⟩ (by decide)⟩

/-- C5 (code bug): when `hasChanges = false` the write phase generates no
secondary output at all. `executeAllFileWrites` checks only
`result.hasChanges` and performs no file-existence check, so a configured
output file that has never been generated is not backfilled - contradicting
the code's own comment ("Only generate output files if there are changes OR
if the file doesn't exist") and the spec. When `hasChanges = true` every
configured output with a known format is regenerated. -/
theorem outputWrites_skip_backfill :
    outputWriteActions (fun _ => some (fun _ => "content"))
      ⟨⟨"es", "es.csv", [⟨"es.js", "js"⟩]⟩, [⟨"k", "T", "h"⟩], false⟩ = [] ∧
    executeAllFileWrites (fun _ => some (fun _ => "content"))
      [⟨⟨"es", "es.csv", [⟨"es.js", "js"⟩]⟩, [⟨"k", "T", "h"⟩], false⟩] = [] ∧
    outputWriteActions (fun _ => some (fun _ => "content"))
      ⟨⟨"es", "es.csv", [⟨"es.js", "js"⟩]⟩, [⟨"k", "T", "h"⟩], true⟩
      = [.writeOutput "es.js" "content"] := by
  refine ⟨rfl, rfl, rfl⟩

/-- C7: when the Reconciler produces zero translation candidates and zero
removed records, the target language's run reports `hasChanges = false`,
makes no backend call (empty trace), raises no error, writes nothing to the
language's target file and regenerates none of its secondary outputs. -/
theorem noop_run_writes_nothing (target : TargetLanguageConfig)
    (sourceMap : List (String × SourceRecord)) (existingRecords : List TargetRecord)
    (tr : Translator) (cmp : String → String → Int) (batchSize : Nat)
    (hcand : identifyTranslationCandidates sourceMap (buildTargetMap existingRecords) = [])
    (hrem : removedCountOf sourceMap existingRecords = 0) :
    ∃ result, processTargetLanguage target sourceMap existingRecords tr cmp batchSize
        = .ok (result, []) ∧
      result.hasChanges = false ∧
      targetWriteActions result = [] ∧
      (∀ reg, outputWriteActions reg result = []) ∧
      (∀ reg, executeAllFileWrites reg [result] = []) := by
  refine ⟨⟨target, preserveExistingTranslations
      (filterValidRecords sourceMap existingRecords) sourceMap, false⟩, ?_, rfl, rfl, ?_, ?_⟩
  · unfold processTargetLanguage
    rw [if_pos ⟨by rw [hcand]; rfl, hrem⟩]
  · intro reg
    simp [outputWriteActions]
  · intro reg
    simp [executeAllFileWrites, targetWriteActions, outputWriteActions]

/-- Witness for C7 at a concrete no-op run. -/
theorem noop_run_writes_nothing_witness :
    identifyTranslationCandidates (buildSourceMap [⟨"k", "A", "", "h"⟩])
        (buildTargetMap [⟨"k", "T", "h"⟩]) = [] ∧
    removedCountOf (buildSourceMap [⟨"k", "A", "", "h"⟩]) [⟨"k", "T", "h"⟩] = 0 ∧
    (∃ result, processTargetLanguage ⟨"es", "es.csv", [⟨"es.js", "js"⟩]⟩
        (buildSourceMap [⟨"k", "A", "", "h"⟩]) [⟨"k", "T", "h"⟩]
        errTranslator cmpCodeUnit 15 = .ok (result, []) ∧
      result.hasChanges = false ∧
      targetWriteActions result = [] ∧
      (∀ reg, outputWriteActions reg result = []) ∧
      (∀ reg, executeAllFileWrites reg [result] = [])) :=
  ⟨by decide, by decide,
    noop_run_writes_nothing _ _ _ _ _ _ (by decide) (by decide)⟩

/-- C9 counterexample: the persisted order is produced by `localeCompare`,
whose collation is the host environment's default locale, so it is not
"locale-stable" and not deterministic across host environments: the same
run (source keys "a" and "B", one obsolete key removed, no translation
needed) persists ["B", "a"] on a POSIX/C-collation host and ["a", "B"] on a
Unicode-collation (en-style) host; the latter also differs from the
code-unit lexicographic order of the spec's words. -/
theorem localeCompare_order_counterexample :
    processTargetLanguage ⟨"es", "es.csv", []⟩
        (buildSourceMap [⟨"a", "A", "", "ha"⟩, ⟨"B", "Bee", "", "hb"⟩])
        [⟨"B", "tb", "hb"⟩, ⟨"a", "ta", "ha"⟩, ⟨"old", "t", "x"⟩]
        errTranslator cmpCodeUnit 15
      = .ok (⟨⟨"es", "es.csv", []⟩, [⟨"B", "tb", "hb"⟩, ⟨"a", "ta", "ha"⟩], true⟩, []) ∧
    processTargetLanguage ⟨"es", "es.csv", []⟩
        (buildSourceMap [⟨"a", "A", "", "ha"⟩, ⟨"B", "Bee", "", "hb"⟩])
        [⟨"B", "tb", "hb"⟩, ⟨"a", "ta", "ha"⟩, ⟨"old", "t", "x"⟩]
        errTranslator cmpCaseFirst 15
      = .ok (⟨⟨"es", "es.csv", []⟩, [⟨"a", "ta", "ha"⟩, ⟨"B", "tb", "hb"⟩], true⟩, []) ∧
    sortByKeyLexSpec [⟨"B", "tb", "hb"⟩, ⟨"a", "ta", "ha"⟩]
      = [⟨"B", "tb", "hb"⟩, ⟨"a", "ta", "ha"⟩] := by
  refine ⟨?_, ?_, by decide⟩ <;>
    simp [processTargetLanguage, buildSourceMap, buildTargetMap, buildMapBy, mapSet, mapGet,
      identifyTranslationCandidates, shouldTranslate, filterValidRecords, removedCountOf,
      preserveExistingTranslations, sortByKeyCmp, executeTranslations, cmpCodeUnit,
      cmpCaseFirst, charListLt, asciiToLower]

/-- C9 (amended): before persisting, records are sorted by key using the
host's `localeCompare` collation: the persisted list is a permutation of
the merged record set and is sorted by the host comparator whenever that
comparator is a total preorder; for a fixed host collation the order is
deterministic across runs, but it depends on the host environment's default
locale and need not be code-unit lexicographic. -/
theorem sortByKeyCmp_sorts (cmp : String → String → Int) (rs : List TargetRecord)
    (htot : ∀ a b, cmp a b ≤ 0 ∨ cmp b a ≤ 0)
    (htrans : ∀ a b c, cmp a b ≤ 0 → cmp b c ≤ 0 → cmp a c ≤ 0) :
    (sortByKeyCmp cmp rs).Perm rs ∧
    (sortByKeyCmp cmp rs).Sorted (fun a b => cmp a.key b.key ≤ 0) ∧
    (∀ target sourceMap existingRecords tr batchSize result calls,
      processTargetLanguage target sourceMap existingRecords tr cmp batchSize
          = .ok (result, calls) →
      result.hasChanges = true →
      ∃ newTranslations, result.updatedRecords
        = sortByKeyCmp cmp
            (preserveExistingTranslations
              (filterValidRecords sourceMap existingRecords) sourceMap
              ++ newTranslations)) := by
  refine ⟨List.perm_insertionSort _ rs, ?_, ?_⟩
  · haveI : IsTotal TargetRecord (fun a b => cmp a.key b.key ≤ 0) :=
      ⟨fun a b => htot a.key b.key⟩
    haveI : IsTrans TargetRecord (fun a b => cmp a.key b.key ≤ 0) :=
      ⟨fun a b c => htrans a.key b.key c.key⟩
    exact List.sorted_insertionSort _ rs
  · intro target sourceMap existingRecords tr batchSize result calls hrun hchanges
    unfold processTargetLanguage at hrun
    by_cases hcond : (identifyTranslationCandidates sourceMap
        (buildTargetMap existingRecords)).length = 0 ∧
        removedCountOf sourceMap existingRecords = 0
    · rw [if_pos hcond] at hrun
      simp only [Except.ok.injEq, Prod.mk.injEq] at hrun
      rw [← hrun.1] at hchanges
      simp at hchanges
    · rw [if_neg hcond] at hrun
      rcases hexec : (if 0 < (identifyTranslationCandidates sourceMap
          (buildTargetMap existingRecords)).length then
          executeTranslations tr batchSize
            (identifyTranslationCandidates sourceMap (buildTargetMap existingRecords))
        else .ok ([], [])) with e | ⟨news, calls'⟩
      · rw [hexec] at hrun
        simp at hrun
      · rw [hexec] at hrun
        simp only [Except.ok.injEq, Prod.mk.injEq] at hrun
        exact ⟨news, by rw [← hrun.1]⟩

/-- Witness for C9's amended statement with a concrete total preorder and
record list. -/
theorem sortByKeyCmp_sorts_witness :
    (∀ a b : String, (fun _ _ : String => (0 : Int)) a b ≤ 0 ∨
      (fun _ _ : String => (0 : Int)) b a ≤ 0) ∧
    ((sortByKeyCmp (fun _ _ : String => (0 : Int)) [⟨"b", "y", "h"⟩, ⟨"a", "x", "h"⟩]).Perm
        [⟨"b", "y", "h"⟩, ⟨"a", "x", "h"⟩] ∧
      (sortByKeyCmp (fun _ _ : String => (0 : Int)) [⟨"b", "y", "h"⟩, ⟨"a", "x", "h"⟩]).Sorted
        (fun a b : TargetRecord => (fun _ _ : String => (0 : Int)) a.key b.key ≤ 0) ∧
      (∀ target sourceMap existingRecords tr batchSize result calls,
        processTargetLanguage target sourceMap existingRecords tr
            (fun _ _ : String => (0 : Int)) batchSize = .ok (result, calls) →
        result.hasChanges = true →
        ∃ newTranslations, result.updatedRecords
          = sortByKeyCmp (fun _ _ : String => (0 : Int))
              (preserveExistingTranslations
                (filterValidRecords sourceMap existingRecords) sourceMap
                ++ newTranslations))) :=
  ⟨fun _ _ => Or.inl (Int.le_refl 0),
    sortByKeyCmp_sorts (fun _ _ : String => (0 : Int)) [⟨"b", "y", "h"⟩, ⟨"a", "x", "h"⟩]
      (fun _ _ => Or.inl (Int.le_refl 0)) (fun _ _ _ _ _ => Int.le_refl 0)⟩

theorem mapGet_of_mem_nodup {α : Type} {m : List (String × α)}
    (hnd : (m.map (fun p => p.1)).Nodup) {k : String} {v : α}
    (hmem : (k, v) ∈ m) : mapGet m k = some v := by
  induction m with
  | nil => simp at hmem
  | cons p rest ih =>
    rcases List.mem_cons.mp hmem with heq | hmem'
    · rw [← heq, mapGet_cons, if_pos (by simp)]
    · rw [mapGet_cons]
      rcases hp : (p.1 == k) with _ | _
      · simp only [Bool.false_eq_true, if_false]
        exact ih (List.Nodup.of_cons (by simpa using hnd)) hmem'
      · exfalso
        simp only [List.map_cons, List.nodup_cons] at hnd
        have hk : p.1 = k := by simpa using hp
        exact hnd.1 (by
          rw [hk]
          exact List.mem_map.mpr ⟨(k, v), hmem', rfl⟩)

theorem candidates_key_nodup (sourceMap : List (String × SourceRecord))
    (existingMap : List (String × TargetRecord))
    (hnd : (sourceMap.map (fun p => p.1)).Nodup) :
    ((identifyTranslationCandidates sourceMap existingMap).map
      (fun c => c.key)).Nodup := by
  unfold identifyTranslationCandidates
  rw [List.map_map]
  have : ((sourceMap.filter (fun p => shouldTranslate existingMap p.1 p.2)).map
      ((fun c => c.key) ∘ (fun p : String × SourceRecord => (⟨p.1, p.2⟩ : TranslationCandidate))))
      = (sourceMap.filter (fun p => shouldTranslate existingMap p.1 p.2)).map (fun p => p.1) := by
    apply List.map_congr_left
    intro p _
    rfl
  rw [this]
  exact List.Nodup.sublist
    (List.Sublist.map _ (List.filter_sublist sourceMap)) hnd

theorem candidates_current {sourceMap : List (String × SourceRecord)}
    {existingMap : List (String × TargetRecord)}
    (hnd : (sourceMap.map (fun p => p.1)).Nodup) {c : TranslationCandidate}
    (hc : c ∈ identifyTranslationCandidates sourceMap existingMap) :
    mapGet sourceMap c.key = some c.sourceRecord :=
  mapGet_of_mem_nodup hnd (mem_identifyTranslationCandidates.mp hc).1

theorem find?_key_self {cs : List TranslationCandidate}
    (hnd : (cs.map (fun c => c.key)).Nodup) {c : TranslationCandidate} (hc : c ∈ cs) :
    cs.find? (fun s => s.key == c.key) = some c := by
  induction cs with
  | nil => simp at hc
  | cons d rest ih =>
    rcases List.mem_cons.mp hc with heq | hmem
    · rw [← heq]
      rw [find?_cons, if_pos (by simp)]
    · simp only [List.map_cons, List.nodup_cons] at hnd
      have hne : d.key ≠ c.key := by
        intro h
        exact hnd.1 (h ▸ List.mem_map.mpr ⟨c, hmem, rfl⟩)
      rw [find?_cons, if_neg (by simpa using hne)]
      exact ih hnd.2 hmem

theorem translateIndividually_eval (tr : Translator) (f : String → String → String)
    (htr : ∀ t d, tr.translate t d = .ok (f t d)) (cs : List TranslationCandidate) :
    translateIndividually tr cs
      = .ok (cs.map (fun c => ⟨c.key,
          f c.sourceRecord.text c.sourceRecord.description, c.sourceRecord.hash⟩),
        cs.map (fun c => .single c.sourceRecord.text c.sourceRecord.description)) := by
  induction cs with
  | nil => rfl
  | cons c rest ih =>
    unfold translateIndividually
    rw [htr, ih]
    rfl

theorem translateIndividually_spec {tr : Translator} :
    ∀ {cs : List TranslationCandidate} {recs : List TargetRecord}
      {calls : List BackendCall},
    translateIndividually tr cs = .ok (recs, calls) →
    recs.map (fun r => r.key) = cs.map (fun c => c.key) ∧
    (∀ r ∈ recs, ∃ c ∈ cs, r.key = c.key ∧ r.hash = c.sourceRecord.hash) := by
  intro cs
  induction cs with
  | nil =>
    intro recs calls h
    unfold translateIndividually at h
    simp only [Except.ok.injEq, Prod.mk.injEq] at h
    rw [← h.1]
    simp
  | cons c rest ih =>
    intro recs calls h
    unfold translateIndividually at h
    rcases htr : tr.translate c.sourceRecord.text c.sourceRecord.description with e | t
    · rw [htr] at h
      simp at h
    · rw [htr] at h
      rcases hrest : translateIndividually tr rest with e | ⟨recs', calls'⟩
      · rw [hrest] at h
        simp at h
      · rw [hrest] at h
        simp only [Except.ok.injEq, Prod.mk.injEq] at h
        rcases ih hrest with ⟨hkeys, hmem⟩
        rw [← h.1]
        constructor
        · simp [hkeys]
        · intro r hr
          rcases List.mem_cons.mp hr with heq | hmem'
          · exact ⟨c, List.mem_cons_self _ _, by rw [heq], by rw [heq]⟩
          · rcases hmem r hmem' with ⟨c', hc', hk, hh⟩
            exact ⟨c', List.mem_cons_of_mem _ hc', hk, hh⟩

theorem key_inj_of_nodup {l : List TranslationCandidate}
    (hnd : (l.map (fun c => c.key)).Nodup) {a b : TranslationCandidate}
    (ha : a ∈ l) (hb : b ∈ l) (hk : a.key = b.key) : a = b := by
  induction l with
  | nil => simp at ha
  | cons d rest ih =>
    simp only [List.map_cons, List.nodup_cons] at hnd
    rcases List.mem_cons.mp ha with haq | ha' <;>
      rcases List.mem_cons.mp hb with hbq | hb'
    · rw [haq, hbq]
    · exfalso
      exact hnd.1 (by
        rw [haq] at hk
        rw [hk]
        exact List.mem_map.mpr ⟨b, hb', rfl⟩)
    · exfalso
      exact hnd.1 (by
        rw [hbq] at hk
        rw [← hk]
        exact List.mem_map.mpr ⟨a, ha', rfl⟩)
    · exact ih hnd.2 ha' hb'

theorem runFallback_eval (tr : Translator) (f : String → String → String)
    (htr : ∀ t d, tr.translate t d = .ok (f t d))
    (cs : List TranslationCandidate) (hnd : (cs.map (fun c => c.key)).Nodup) :
    ∀ (chunk : List TranslationCandidate), (∀ c ∈ chunk, c ∈ cs) →
    runFallback tr cs (chunk.map toBatchRequest)
      = .ok (chunk.map (fun c => ⟨c.key,
          f c.sourceRecord.text c.sourceRecord.description, c.sourceRecord.hash⟩),
        chunk.map (fun c => .single c.sourceRecord.text c.sourceRecord.description)) := by
  intro chunk
  induction chunk with
  | nil => intro _; rfl
  | cons c rest ih =>
    intro hsub
    have hc : c ∈ cs := hsub c (List.mem_cons_self _ _)
    unfold runFallback
    rw [List.map_cons]
    dsimp only [toBatchRequest]
    rw [find?_key_self hnd hc]
    dsimp only
    rw [htr]
    dsimp only
    rw [ih (fun x hx => hsub x (List.mem_cons_of_mem _ hx))]
    rfl

theorem runFallback_keys {tr : Translator} {cs : List TranslationCandidate} :
    ∀ {reqs : List BatchTranslationRequest} {recs : List TargetRecord}
      {calls : List BackendCall},
    runFallback tr cs reqs = .ok (recs, calls) →
    recs.map (fun r => r.key) = reqs.map (fun r => r.key) ∧
    (∀ r ∈ recs, ∃ c ∈ cs, r.key = c.key ∧ r.hash = c.sourceRecord.hash) := by
  intro reqs
  induction reqs with
  | nil =>
    intro recs calls h
    unfold runFallback at h
    simp only [Except.ok.injEq, Prod.mk.injEq] at h
    rw [← h.1]
    simp
  | cons req rest ih =>
    intro recs calls h
    unfold runFallback at h
    rcases hfind : cs.find? (fun s => s.key == req.key) with _ | c
    · rw [hfind] at h
      simp at h
    · rw [hfind] at h
      rcases htr : tr.translate req.text req.description with e | t
      · rw [htr] at h
        simp at h
      · rw [htr] at h
        rcases hrest : runFallback tr cs rest with e | ⟨recs', calls'⟩
        · rw [hrest] at h
          simp at h
        · rw [hrest] at h
          simp only [Except.ok.injEq, Prod.mk.injEq] at h
          rcases ih hrest with ⟨hkeys, hmem⟩
          have hcmem : c ∈ cs := List.mem_of_find?_eq_some hfind
          have hckey : c.key = req.key := by simpa using List.find?_some hfind
          rw [← h.1]
          constructor
          · simp [hkeys]
          · intro r hr
            rcases List.mem_cons.mp hr with heq | hmem'
            · exact ⟨c, hcmem, by rw [heq, hckey], by rw [heq]⟩
            · exact hmem r hmem'

theorem collectBatchRecords_complete :
    ∀ (chunk : List TranslationCandidate) (m : List (String × String)),
    (∀ c ∈ chunk, ∃ t, mapGet m c.key = some t ∧ t ≠ "") →
    collectBatchRecords chunk m
      = (chunk.map (fun c => ⟨c.key, (mapGet m c.key).getD "", c.sourceRecord.hash⟩),
        false) := by
  intro chunk
  induction chunk with
  | nil => intro m _; rfl
  | cons c rest ih =>
    intro m hall
    rcases hall c (List.mem_cons_self _ _) with ⟨t, hm, hne⟩
    unfold collectBatchRecords
    rw [hm, ih m (fun x hx => hall x (List.mem_cons_of_mem _ hx))]
    simp [hne, hm]

theorem collectBatchRecords_keys :
    ∀ {chunk : List TranslationCandidate} {m : List (String × String)}
      {recs : List TargetRecord} {failed : Bool},
    collectBatchRecords chunk m = (recs, failed) →
    ∀ r ∈ recs, ∃ c ∈ chunk, r.key = c.key ∧ r.hash = c.sourceRecord.hash := by
  intro chunk
  induction chunk with
  | nil =>
    intro m recs failed h r hr
    unfold collectBatchRecords at h
    simp only [Prod.mk.injEq] at h
    rw [← h.1] at hr
    simp at hr
  | cons c rest ih =>
    intro m recs failed h r hr
    unfold collectBatchRecords at h
    rcases hm : mapGet m c.key with _ | t
    · rw [hm] at h
      dsimp only at h
      simp only [Prod.mk.injEq] at h
      rw [← h.1] at hr
      simp at hr
    · rw [hm] at h
      dsimp only at h
      rcases he : (t == "") with _ | _
      · rw [he] at h
        simp only [Bool.false_eq_true, if_false] at h
        rcases hcol : collectBatchRecords rest m with ⟨recs', failed'⟩
        rw [hcol] at h
        dsimp only at h
        simp only [Prod.mk.injEq] at h
        rw [← h.1] at hr
        rcases List.mem_cons.mp hr with heq | hmem'
        · exact ⟨c, List.mem_cons_self _ _, by rw [heq], by rw [heq]⟩
        · rcases ih hcol r hmem' with ⟨c', hc', hk, hh⟩
          exact ⟨c', List.mem_cons_of_mem _ hc', hk, hh⟩
      · rw [he] at h
        simp only [if_true] at h
        simp only [Prod.mk.injEq] at h
        rw [← h.1] at hr
        simp at hr

theorem collectBatchRecords_covers :
    ∀ {chunk : List TranslationCandidate} {m : List (String × String)}
      {recs : List TargetRecord},
    collectBatchRecords chunk m = (recs, false) →
    ∀ c ∈ chunk, ∃ r ∈ recs, r.key = c.key ∧ r.hash = c.sourceRecord.hash := by
  intro chunk
  induction chunk with
  | nil =>
    intro m recs _ c hc
    simp at hc
  | cons d rest ih =>
    intro m recs h c hc
    unfold collectBatchRecords at h
    rcases hm : mapGet m d.key with _ | t
    · rw [hm] at h
      dsimp only at h
      simp at h
    · rw [hm] at h
      dsimp only at h
      rcases he : (t == "") with _ | _
      · rw [he] at h
        simp only [Bool.false_eq_true, if_false] at h
        rcases hcol : collectBatchRecords rest m with ⟨recs', failed'⟩
        rw [hcol] at h
        dsimp only at h
        simp only [Prod.mk.injEq] at h
        rcases List.mem_cons.mp hc with heq | hmem'
        · refine ⟨⟨d.key, t, d.sourceRecord.hash⟩, ?_, by rw [heq], by rw [heq]⟩
          rw [← h.1]
          exact List.mem_cons_self _ _
        · have hfailed : failed' = false := h.2
          rcases ih (by rw [hcol, hfailed]) c hmem' with ⟨r, hr, hk, hh⟩
          exact ⟨r, by rw [← h.1]; exact List.mem_cons_of_mem _ hr, hk, hh⟩
      · rw [he] at h
        simp at h

theorem batchRequest_keys (chunk : List TranslationCandidate) :
    (chunk.map toBatchRequest).map (fun r => r.key) = chunk.map (fun c => c.key) := by
  rw [List.map_map]
  rfl

theorem runChunk_success (tr : Translator) (cs chunk : List TranslationCandidate)
    {m : List (String × String)}
    (hbatch : tr.translateBatch (chunk.map toBatchRequest) = .ok m)
    (hall : ∀ c ∈ chunk, ∃ t, mapGet m c.key = some t ∧ t ≠ "") :
    runChunk tr cs chunk
      = .ok (chunk.map (fun c =>
          ⟨c.key, (mapGet m c.key).getD "", c.sourceRecord.hash⟩),
        [.batch (chunk.map toBatchRequest)]) := by
  unfold runChunk
  dsimp only
  rw [hbatch]
  dsimp only
  rw [collectBatchRecords_complete chunk m hall]
  dsimp only
  simp

theorem runChunk_batchError (tr : Translator) (f : String → String → String)
    (cs chunk : List TranslationCandidate) {e : TrError}
    (hnd : (cs.map (fun c => c.key)).Nodup) (hsub : ∀ c ∈ chunk, c ∈ cs)
    (hbatch : tr.translateBatch (chunk.map toBatchRequest) = .error e)
    (htr : ∀ t d, tr.translate t d = .ok (f t d)) :
    runChunk tr cs chunk
      = .ok (chunk.map (fun c => ⟨c.key,
          f c.sourceRecord.text c.sourceRecord.description, c.sourceRecord.hash⟩),
        .batch (chunk.map toBatchRequest)
          :: chunk.map (fun c =>
            .single c.sourceRecord.text c.sourceRecord.description)) := by
  unfold runChunk
  dsimp only
  rw [hbatch]
  dsimp only
  rw [runFallback_eval tr f htr cs hnd chunk hsub]

theorem runChunk_keys_complete {tr : Translator} {cs chunk : List TranslationCandidate}
    {recs : List TargetRecord} {calls : List BackendCall}
    (hcomplete : ∀ reqs m, tr.translateBatch reqs = .ok m →
      ∀ req ∈ reqs, ∃ t, mapGet m req.key = some t ∧ t ≠ "")
    (h : runChunk tr cs chunk = .ok (recs, calls)) :
    recs.map (fun r => r.key) = chunk.map (fun c => c.key) := by
  unfold runChunk at h
  dsimp only at h
  rcases hbatch : tr.translateBatch (chunk.map toBatchRequest) with e | m <;>
    rw [hbatch] at h <;> dsimp only at h
  · rcases hfb : runFallback tr cs (chunk.map toBatchRequest) with e' | ⟨recs', calls'⟩ <;>
      rw [hfb] at h <;> dsimp only at h
    · simp at h
    · simp only [Except.ok.injEq, Prod.mk.injEq] at h
      rw [← h.1, (runFallback_keys hfb).1, batchRequest_keys]
  · have hall : ∀ c ∈ chunk, ∃ t, mapGet m c.key = some t ∧ t ≠ "" := by
      intro c hcmem
      have := hcomplete _ _ hbatch (toBatchRequest c) (List.mem_map.mpr ⟨c, hcmem, rfl⟩)
      simpa [toBatchRequest] using this
    rw [collectBatchRecords_complete chunk m hall] at h
    dsimp only at h
    simp only [Bool.false_eq_true, if_false] at h
    simp only [Except.ok.injEq, Prod.mk.injEq] at h
    rw [← h.1]
    simp

theorem runChunk_spec {tr : Translator} {cs chunk : List TranslationCandidate}
    {recs : List TargetRecord} {calls : List BackendCall}
    (hnd : (cs.map (fun c => c.key)).Nodup) (hsub : ∀ c ∈ chunk, c ∈ cs)
    (h : runChunk tr cs chunk = .ok (recs, calls)) :
    (∀ r ∈ recs, ∃ c ∈ cs, r.key = c.key ∧ r.hash = c.sourceRecord.hash) ∧
    (∀ c ∈ chunk, ∃ r ∈ recs, r.key = c.key ∧ r.hash = c.sourceRecord.hash) := by
  have hkey_to_rec : ∀ (rs : List TargetRecord) (c : TranslationCandidate),
      c ∈ cs →
      (∀ r ∈ rs, ∃ c' ∈ cs, r.key = c'.key ∧ r.hash = c'.sourceRecord.hash) →
      c.key ∈ rs.map (fun r => r.key) →
      ∃ r ∈ rs, r.key = c.key ∧ r.hash = c.sourceRecord.hash := by
    intro rs c hcmem hcur hkey
    rcases List.mem_map.mp hkey with ⟨r, hr, hrk⟩
    rcases hcur r hr with ⟨c', hc', hk, hh⟩
    have : c' = c := key_inj_of_nodup hnd hc' hcmem (by rw [← hk, hrk])
    exact ⟨r, hr, hrk, by rw [hh, this]⟩
  unfold runChunk at h
  dsimp only at h
  rcases hbatch : tr.translateBatch (chunk.map toBatchRequest) with e | m <;>
    rw [hbatch] at h <;> dsimp only at h
  · rcases hfb : runFallback tr cs (chunk.map toBatchRequest) with e' | ⟨recs', calls'⟩ <;>
      rw [hfb] at h <;> dsimp only at h
    · simp at h
    · simp only [Except.ok.injEq, Prod.mk.injEq] at h
      rcases runFallback_keys hfb with ⟨hkeys, hcur⟩
      rw [← h.1]
      refine ⟨hcur, ?_⟩
      intro c hcmem
      apply hkey_to_rec recs' c (hsub c hcmem) hcur
      rw [hkeys, batchRequest_keys]
      exact List.mem_map.mpr ⟨c, hcmem, rfl⟩
  · rcases hcol : collectBatchRecords chunk m with ⟨recs0, failed⟩
    rw [hcol] at h
    dsimp only at h
    rcases hf : failed with _ | _
    · rw [hf] at h
      simp only [Bool.false_eq_true, if_false] at h
      simp only [Except.ok.injEq, Prod.mk.injEq] at h
      rw [← h.1]
      constructor
      · intro r hr
        rcases collectBatchRecords_keys hcol r hr with ⟨c, hc, hk, hh⟩
        exact ⟨c, hsub c hc, hk, hh⟩
      · intro c hcmem
        exact collectBatchRecords_covers (by rw [hcol, hf]) c hcmem
    · rw [hf] at h
      simp only [if_true] at h
      rcases hfb : runFallback tr cs (chunk.map toBatchRequest) with e' | ⟨frecs, fcalls⟩ <;>
        rw [hfb] at h <;> dsimp only at h
      · simp at h
      · simp only [Except.ok.injEq, Prod.mk.injEq] at h
        rcases runFallback_keys hfb with ⟨hkeys, hcur⟩
        rw [← h.1]
        constructor
        · intro r hr
          rcases List.mem_append.mp hr with hr0 | hr1
          · rcases collectBatchRecords_keys hcol r hr0 with ⟨c, hc, hk, hh⟩
            exact ⟨c, hsub c hc, hk, hh⟩
          · exact hcur r hr1
        · intro c hcmem
          have : ∃ r ∈ frecs, r.key = c.key ∧ r.hash = c.sourceRecord.hash := by
            apply hkey_to_rec frecs c (hsub c hcmem) hcur
            rw [hkeys, batchRequest_keys]
            exact List.mem_map.mpr ⟨c, hcmem, rfl⟩
          rcases this with ⟨r, hr, hk, hh⟩
          exact ⟨r, List.mem_append.mpr (Or.inr hr), hk, hh⟩

theorem translateInBatchesAux_keys_complete {tr : Translator}
    {cs : List TranslationCandidate} {bs : Nat}
    (hcomplete : ∀ reqs m, tr.translateBatch reqs = .ok m →
      ∀ req ∈ reqs, ∃ t, mapGet m req.key = some t ∧ t ≠ "") :
    ∀ (cs' : List TranslationCandidate) {recs : List TargetRecord}
      {calls : List BackendCall},
    translateInBatchesAux tr cs bs cs' = .ok (recs, calls) →
    recs.map (fun r => r.key) = cs'.map (fun c => c.key) := by
  have main : ∀ (n : Nat) (cs' : List TranslationCandidate), cs'.length ≤ n →
      ∀ {recs : List TargetRecord} {calls : List BackendCall},
      translateInBatchesAux tr cs bs cs' = .ok (recs, calls) →
      recs.map (fun r => r.key) = cs'.map (fun c => c.key) := by
    intro n
    induction n with
    | zero =>
      intro cs' hlen recs calls h
      have : cs' = [] := List.length_eq_zero.mp (Nat.le_zero.mp hlen)
      subst this
      unfold translateInBatchesAux at h
      simp only [Except.ok.injEq, Prod.mk.injEq] at h
      rw [← h.1]
      simp
    | succ n ih =>
      intro cs' hlen recs calls h
      match cs' with
      | [] =>
        unfold translateInBatchesAux at h
        simp only [Except.ok.injEq, Prod.mk.injEq] at h
        rw [← h.1]
        simp
      | c :: rest =>
        unfold translateInBatchesAux at h
        rcases hchunk : runChunk tr cs (c :: rest.take (bs - 1)) with e | ⟨recs0, calls0⟩ <;>
          rw [hchunk] at h <;> dsimp only at h
        · simp at h
        · rcases haux : translateInBatchesAux tr cs bs (rest.drop (bs - 1)) with e | ⟨recs1, calls1⟩ <;>
            rw [haux] at h <;> dsimp only at h
          · simp at h
          · simp only [Except.ok.injEq, Prod.mk.injEq] at h
            have hlen' : (rest.drop (bs - 1)).length ≤ n := by
              simp only [List.length_cons] at hlen
              simp only [List.length_drop]
              omega
            rw [← h.1, List.map_append, runChunk_keys_complete hcomplete hchunk,
              ih (rest.drop (bs - 1)) hlen' haux]
            have hsplit : rest.take (bs - 1) ++ rest.drop (bs - 1) = rest :=
              List.take_append_drop _ _
            calc (c :: rest.take (bs - 1)).map (fun c => c.key)
                  ++ (rest.drop (bs - 1)).map (fun c => c.key)
                = (c :: (rest.take (bs - 1) ++ rest.drop (bs - 1))).map (fun c => c.key) := by
                  simp
              _ = (c :: rest).map (fun c => c.key) := by rw [hsplit]
  exact fun cs' {recs calls} h => main cs'.length cs' (Nat.le_refl _) h

theorem translateInBatchesAux_spec {tr : Translator}
    {cs : List TranslationCandidate} {bs : Nat}
    (hnd : (cs.map (fun c => c.key)).Nodup) :
    ∀ (cs' : List TranslationCandidate), (∀ c ∈ cs', c ∈ cs) →
    ∀ {recs : List TargetRecord} {calls : List BackendCall},
    translateInBatchesAux tr cs bs cs' = .ok (recs, calls) →
    (∀ r ∈ recs, ∃ c ∈ cs, r.key = c.key ∧ r.hash = c.sourceRecord.hash) ∧
    (∀ c ∈ cs', ∃ r ∈ recs, r.key = c.key ∧ r.hash = c.sourceRecord.hash) := by
  have main : ∀ (n : Nat) (cs' : List TranslationCandidate), cs'.length ≤ n →
      (∀ c ∈ cs', c ∈ cs) →
      ∀ {recs : List TargetRecord} {calls : List BackendCall},
      translateInBatchesAux tr cs bs cs' = .ok (recs, calls) →
      (∀ r ∈ recs, ∃ c ∈ cs, r.key = c.key ∧ r.hash = c.sourceRecord.hash) ∧
      (∀ c ∈ cs', ∃ r ∈ recs, r.key = c.key ∧ r.hash = c.sourceRecord.hash) := by
    intro n
    induction n with
    | zero =>
      intro cs' hlen hsub recs calls h
      have : cs' = [] := List.length_eq_zero.mp (Nat.le_zero.mp hlen)
      subst this
      unfold translateInBatchesAux at h
      simp only [Except.ok.injEq, Prod.mk.injEq] at h
      rw [← h.1]
      simp
    | succ n ih =>
      intro cs' hlen hsub recs calls h
      match cs' with
      | [] =>
        unfold translateInBatchesAux at h
        simp only [Except.ok.injEq, Prod.mk.injEq] at h
        rw [← h.1]
        simp
      | c :: rest =>
        unfold translateInBatchesAux at h
        rcases hchunk : runChunk tr cs (c :: rest.take (bs - 1)) with e | ⟨recs0, calls0⟩ <;>
          rw [hchunk] at h <;> dsimp only at h
        · simp at h
        · rcases haux : translateInBatchesAux tr cs bs (rest.drop (bs - 1)) with e | ⟨recs1, calls1⟩ <;>
            rw [haux] at h <;> dsimp only at h
          · simp at h
          · simp only [Except.ok.injEq, Prod.mk.injEq] at h
            have hsubchunk : ∀ x ∈ c :: rest.take (bs - 1), x ∈ cs := by
              intro x hx
              rcases List.mem_cons.mp hx with heq | hmem
              · rw [heq]; exact hsub c (List.mem_cons_self _ _)
              · exact hsub x (List.mem_cons_of_mem _ (List.take_subset _ _ hmem))
            rcases runChunk_spec hnd hsubchunk hchunk with ⟨hcur0, hcov0⟩
            have hlen' : (rest.drop (bs - 1)).length ≤ n := by
              simp only [List.length_cons] at hlen
              simp only [List.length_drop]
              omega
            have hsub' : ∀ x ∈ rest.drop (bs - 1), x ∈ cs := fun x hx =>
              hsub x (List.mem_cons_of_mem _ (List.drop_subset _ _ hx))
            rcases ih (rest.drop (bs - 1)) hlen' hsub' haux with ⟨hcur1, hcov1⟩
            rw [← h.1]
            constructor
            · intro r hr
              rcases List.mem_append.mp hr with hr0 | hr1
              · exact hcur0 r hr0
              · exact hcur1 r hr1
            · intro x hx
              have hx' : x ∈ (c :: rest.take (bs - 1)) ∨ x ∈ rest.drop (bs - 1) := by
                rcases List.mem_cons.mp hx with heq | hmem
                · exact Or.inl (heq ▸ List.mem_cons_self _ _)
                · rcases List.mem_append.mp
                    ((List.take_append_drop (bs - 1) rest) ▸ hmem) with hm | hm
                  · exact Or.inl (List.mem_cons_of_mem _ hm)
                  · exact Or.inr hm
              rcases hx' with hm | hm
              · rcases hcov0 x hm with ⟨r, hr, hk, hh⟩
                exact ⟨r, List.mem_append.mpr (Or.inl hr), hk, hh⟩
              · rcases hcov1 x hm with ⟨r, hr, hk, hh⟩
                exact ⟨r, List.mem_append.mpr (Or.inr hr), hk, hh⟩
  exact fun cs' hsub {recs calls} h => main cs'.length cs' (Nat.le_refl _) hsub h

theorem find?_keyfn_self {α : Type} (key : α → String) {l : List α}
    (hnd : (l.map key).Nodup) {a : α} (ha : a ∈ l) :
    l.find? (fun x => key x == key a) = some a := by
  induction l with
  | nil => simp at ha
  | cons d rest ih =>
    rcases List.mem_cons.mp ha with heq | hmem
    · rw [← heq, find?_cons, if_pos (by simp)]
    · simp only [List.map_cons, List.nodup_cons] at hnd
      have hne : key d ≠ key a := by
        intro h
        exact hnd.1 (h ▸ List.mem_map.mpr ⟨a, hmem, rfl⟩)
      rw [find?_cons, if_neg (by simpa using hne)]
      exact ih hnd.2 hmem

theorem coverage_of_keys {cs : List TranslationCandidate}
    (hnd : (cs.map (fun c => c.key)).Nodup) {rs : List TargetRecord}
    (hcur : ∀ r ∈ rs, ∃ c' ∈ cs, r.key = c'.key ∧ r.hash = c'.sourceRecord.hash)
    {c : TranslationCandidate} (hc : c ∈ cs)
    (hkey : c.key ∈ rs.map (fun r => r.key)) :
    ∃ r ∈ rs, r.key = c.key ∧ r.hash = c.sourceRecord.hash := by
  rcases List.mem_map.mp hkey with ⟨r, hr, hrk⟩
  rcases hcur r hr with ⟨c', hc', hk, hh⟩
  have : c' = c := key_inj_of_nodup hnd hc' hc (by rw [← hk, hrk])
  exact ⟨r, hr, hrk, by rw [hh, this]⟩

theorem executeTranslations_keys_complete {tr : Translator} {bs : Nat}
    {cs : List TranslationCandidate} {recs : List TargetRecord}
    {calls : List BackendCall}
    (hcomplete : ∀ reqs m, tr.translateBatch reqs = .ok m →
      ∀ req ∈ reqs, ∃ t, mapGet m req.key = some t ∧ t ≠ "")
    (h : executeTranslations tr bs cs = .ok (recs, calls)) :
    recs.map (fun r => r.key) = cs.map (fun c => c.key) := by
  unfold executeTranslations at h
  by_cases hbs : bs = 1
  · rw [if_pos hbs] at h
    exact (translateIndividually_spec h).1
  · rw [if_neg hbs] at h
    unfold translateInBatches at h
    exact translateInBatchesAux_keys_complete hcomplete cs h

theorem executeTranslations_spec {tr : Translator} {bs : Nat}
    {cs : List TranslationCandidate} {recs : List TargetRecord}
    {calls : List BackendCall}
    (hnd : (cs.map (fun c => c.key)).Nodup)
    (h : executeTranslations tr bs cs = .ok (recs, calls)) :
    (∀ r ∈ recs, ∃ c ∈ cs, r.key = c.key ∧ r.hash = c.sourceRecord.hash) ∧
    (∀ c ∈ cs, ∃ r ∈ recs, r.key = c.key ∧ r.hash = c.sourceRecord.hash) := by
  unfold executeTranslations at h
  by_cases hbs : bs = 1
  · rw [if_pos hbs] at h
    rcases translateIndividually_spec h with ⟨hkeys, hcur⟩
    refine ⟨hcur, ?_⟩
    intro c hc
    apply coverage_of_keys hnd hcur hc
    rw [hkeys]
    exact List.mem_map.mpr ⟨c, hc, rfl⟩
  · rw [if_neg hbs] at h
    unfold translateInBatches at h
    exact translateInBatchesAux_spec hnd cs (fun _ hx => hx) h

theorem preserve_current {filteredExisting : List TargetRecord}
    {sourceMap : List (String × SourceRecord)} {r : TargetRecord}
    (hr : r ∈ preserveExistingTranslations filteredExisting sourceMap) :
    ∃ sr, mapGet sourceMap r.key = some sr ∧ r.hash = sr.hash := by
  unfold preserveExistingTranslations at hr
  rcases List.mem_filter.mp hr with ⟨_, hpred⟩
  rcases hm : mapGet sourceMap r.key with _ | sr
  · rw [hm] at hpred
    simp at hpred
  · rw [hm] at hpred
    dsimp only at hpred
    have hsr : sr.hash = r.hash := by simpa using hpred
    exact ⟨sr, rfl, hsr.symm⟩

theorem preserve_mem {sourceMap : List (String × SourceRecord)}
    {existingRecords : List TargetRecord} {er : TargetRecord} {sr : SourceRecord}
    (her : er ∈ existingRecords)
    (hget : mapGet sourceMap er.key = some sr) (hhash : er.hash = sr.hash) :
    er ∈ preserveExistingTranslations
      (filterValidRecords sourceMap existingRecords) sourceMap := by
  apply List.mem_filter.mpr
  refine ⟨List.mem_filter.mpr ⟨her, by rw [hget]; rfl⟩, ?_⟩
  rw [hget]
  dsimp only
  simp [hhash]

theorem processTargetLanguage_cases {target : TargetLanguageConfig}
    {sourceMap : List (String × SourceRecord)} {existingRecords : List TargetRecord}
    {tr : Translator} {cmp : String → String → Int} {batchSize : Nat}
    {result : ProcessingResult} {calls : List BackendCall}
    (h : processTargetLanguage target sourceMap existingRecords tr cmp batchSize
      = .ok (result, calls)) :
    ((identifyTranslationCandidates sourceMap (buildTargetMap existingRecords)).length = 0 ∧
      removedCountOf sourceMap existingRecords = 0 ∧
      result = ⟨target, preserveExistingTranslations
        (filterValidRecords sourceMap existingRecords) sourceMap, false⟩ ∧
      calls = []) ∨
    (∃ news,
      result = ⟨target, sortByKeyCmp cmp (preserveExistingTranslations
        (filterValidRecords sourceMap existingRecords) sourceMap ++ news), true⟩ ∧
      ((0 < (identifyTranslationCandidates sourceMap
          (buildTargetMap existingRecords)).length ∧
        executeTranslations tr batchSize
          (identifyTranslationCandidates sourceMap (buildTargetMap existingRecords))
          = .ok (news, calls)) ∨
       ((identifyTranslationCandidates sourceMap
          (buildTargetMap existingRecords)).length = 0 ∧ news = [] ∧ calls = []))) := by
  unfold processTargetLanguage at h
  by_cases hcond : (identifyTranslationCandidates sourceMap
      (buildTargetMap existingRecords)).length = 0 ∧
      removedCountOf sourceMap existingRecords = 0
  · rw [if_pos hcond] at h
    simp only [Except.ok.injEq, Prod.mk.injEq] at h
    exact Or.inl ⟨hcond.1, hcond.2, h.1.symm, h.2.symm⟩
  · rw [if_neg hcond] at h
    by_cases hlen : 0 < (identifyTranslationCandidates sourceMap
        (buildTargetMap existingRecords)).length
    · rw [if_pos hlen] at h
      rcases hexec : executeTranslations tr batchSize
          (identifyTranslationCandidates sourceMap (buildTargetMap existingRecords))
        with e | ⟨news, calls'⟩ <;> rw [hexec] at h <;> dsimp only at h
      · simp at h
      · simp only [Except.ok.injEq, Prod.mk.injEq] at h
        obtain ⟨h1, h2⟩ := h
        subst h2
        exact Or.inr ⟨news, h1.symm, Or.inl ⟨hlen, rfl⟩⟩
    · rw [if_neg hlen] at h
      dsimp only at h
      simp only [Except.ok.injEq, Prod.mk.injEq] at h
      exact Or.inr ⟨[], by rw [← h.1], Or.inr ⟨by omega, rfl, h.2.symm⟩⟩

theorem processTargetLanguage_current {target : TargetLanguageConfig}
    {sourceMap : List (String × SourceRecord)} {existingRecords : List TargetRecord}
    {tr : Translator} {cmp : String → String → Int} {batchSize : Nat}
    {result : ProcessingResult} {calls : List BackendCall}
    (hnd : (sourceMap.map (fun p => p.1)).Nodup)
    (h : processTargetLanguage target sourceMap existingRecords tr cmp batchSize
      = .ok (result, calls)) :
    ∀ r ∈ result.updatedRecords,
      ∃ sr, mapGet sourceMap r.key = some sr ∧ r.hash = sr.hash := by
  rcases processTargetLanguage_cases h with
    ⟨_, _, hres, _⟩ | ⟨news, hres, hdrv⟩
  · rw [hres]
    intro r hr
    exact preserve_current hr
  · rw [hres]
    intro r hr
    dsimp only at hr
    have hr' : r ∈ preserveExistingTranslations
        (filterValidRecords sourceMap existingRecords) sourceMap ++ news := by
      unfold sortByKeyCmp at hr
      exact (List.mem_insertionSort _).mp hr
    rcases List.mem_append.mp hr' with hp | hn
    · exact preserve_current hp
    · rcases hdrv with ⟨_, hexec⟩ | ⟨_, hnil, _⟩
      · rcases (executeTranslations_spec
            (candidates_key_nodup _ _ hnd) hexec).1 r hn with ⟨c, hc, hk, hh⟩
        refine ⟨c.sourceRecord, ?_, hh⟩
        rw [hk]
        exact candidates_current hnd hc
      · rw [hnil] at hn
        simp at hn

theorem processTargetLanguage_coverage {target : TargetLanguageConfig}
    {sourceMap : List (String × SourceRecord)} {existingRecords : List TargetRecord}
    {tr : Translator} {cmp : String → String → Int} {batchSize : Nat}
    {result : ProcessingResult} {calls : List BackendCall}
    (hnd : (sourceMap.map (fun p => p.1)).Nodup)
    (h : processTargetLanguage target sourceMap existingRecords tr cmp batchSize
      = .ok (result, calls)) :
    ∀ k sr, mapGet sourceMap k = some sr →
      ∃ r ∈ result.updatedRecords, r.key = k ∧ r.hash = sr.hash := by
  intro k sr hk
  have hmem : (k, sr) ∈ sourceMap := mapGet_some_mem hk
  rcases hshould : shouldTranslate (buildTargetMap existingRecords) k sr with _ | _
  · -- hash matches: the existing record is preserved
    unfold shouldTranslate at hshould
    rcases hem : mapGet (buildTargetMap existingRecords) k with _ | er <;>
      rw [hem] at hshould
    · simp at hshould
    · dsimp only at hshould
      have hhash : er.hash = sr.hash := by
        have : sr.hash = er.hash := by simpa using hshould
        exact this.symm
      have her2 : mapGet (buildMapBy (fun r => r.key) existingRecords) k = some er := hem
      rcases mapGet_buildMapBy_some her2 with ⟨hermem, herkey⟩
      have hpres : er ∈ preserveExistingTranslations
          (filterValidRecords sourceMap existingRecords) sourceMap :=
        preserve_mem hermem (by rw [herkey]; exact hk) hhash
      rcases processTargetLanguage_cases h with
        ⟨_, _, hres, _⟩ | ⟨news, hres, _⟩
      · rw [hres]
        exact ⟨er, hpres, herkey, hhash⟩
      · rw [hres]
        refine ⟨er, ?_, herkey, hhash⟩
        dsimp only
        unfold sortByKeyCmp
        exact (List.mem_insertionSort _).mpr (List.mem_append.mpr (Or.inl hpres))
  · -- stale or missing: the key is a candidate and the driver covers it
    have hcand : (⟨k, sr⟩ : TranslationCandidate) ∈
        identifyTranslationCandidates sourceMap (buildTargetMap existingRecords) :=
      mem_identifyTranslationCandidates.mpr ⟨hmem, hshould⟩
    rcases processTargetLanguage_cases h with
      ⟨hlen, _, _, _⟩ | ⟨news, hres, hdrv⟩
    · exfalso
      rw [List.length_eq_zero.mp hlen] at hcand
      simp at hcand
    · rcases hdrv with ⟨_, hexec⟩ | ⟨hlen, _, _⟩
      · rcases (executeTranslations_spec
            (candidates_key_nodup _ _ hnd) hexec).2 _ hcand with ⟨r, hr, hk', hh⟩
        refine ⟨r, ?_, hk', hh⟩
        rw [hres]
        dsimp only
        unfold sortByKeyCmp
        exact (List.mem_insertionSort _).mpr (List.mem_append.mpr (Or.inr hr))
      · exfalso
        rw [List.length_eq_zero.mp hlen] at hcand
        simp at hcand

/-- C4 counterexample: with duplicate keys in the existing target file, the
preserve pass (which filters the ordered record list, not the map) keeps
every occurrence whose stored hash matches the source hash, so the run's
produced record set contains two records for the key "k" and the earlier
occurrence is not discarded. -/
theorem duplicate_keys_counterexample :
    processTargetLanguage ⟨"es", "es.csv", []⟩ (buildSourceMap [⟨"k", "A", "", "h"⟩])
      [⟨"k", "t1", "h"⟩, ⟨"k", "t2", "h"⟩] errTranslator cmpCodeUnit 15
      = .ok (⟨⟨"es", "es.csv", []⟩, [⟨"k", "t1", "h"⟩, ⟨"k", "t2", "h"⟩], false⟩, []) ∧
    ¬ ((([⟨"k", "t1", "h"⟩, ⟨"k", "t2", "h"⟩] : List TargetRecord).map
      (fun r => r.key)).Nodup) :=
  ⟨by decide, by decide⟩

/-- C4 (amended): duplicate keys are resolved by map overwrite only in the
staleness lookup, where the last occurrence of a key in the existing file
wins; the produced record set has exactly one TargetRecord per key provided
the existing target records have pairwise distinct keys and every successful
batch response carries a nonempty translation for every requested key (the
conditions under which the preserve pass and the translation driver each
emit at most one record per key). -/
theorem record_set_unique_keys {target : TargetLanguageConfig}
    {sourceMap : List (String × SourceRecord)} {existingRecords : List TargetRecord}
    {tr : Translator} {cmp : String → String → Int} {batchSize : Nat}
    {result : ProcessingResult} {calls : List BackendCall}
    (hnd_sm : (sourceMap.map (fun p => p.1)).Nodup)
    (hnd_ex : (existingRecords.map (fun r => r.key)).Nodup)
    (hcomplete : ∀ reqs m, tr.translateBatch reqs = .ok m →
      ∀ req ∈ reqs, ∃ t, mapGet m req.key = some t ∧ t ≠ "")
    (h : processTargetLanguage target sourceMap existingRecords tr cmp batchSize
      = .ok (result, calls)) :
    ((result.updatedRecords.map (fun r => r.key)).Nodup) ∧
    (∀ k, mapGet (buildTargetMap existingRecords) k
      = existingRecords.reverse.find? (fun r => r.key == k)) := by
  have hpres_sub : (preserveExistingTranslations
      (filterValidRecords sourceMap existingRecords) sourceMap).Sublist
      existingRecords :=
    (List.filter_sublist _).trans (List.filter_sublist _)
  have hpres_nodup : ((preserveExistingTranslations
      (filterValidRecords sourceMap existingRecords) sourceMap).map
      (fun r => r.key)).Nodup :=
    List.Nodup.sublist (List.Sublist.map _ hpres_sub) hnd_ex
  have hlast : ∀ k, mapGet (buildTargetMap existingRecords) k
      = existingRecords.reverse.find? (fun r => r.key == k) := by
    intro k
    show mapGet (buildMapBy (fun r : TargetRecord => r.key) existingRecords) k = _
    exact mapGet_buildMapBy _ _ _
  refine ⟨?_, hlast⟩
  rcases processTargetLanguage_cases h with
    ⟨_, _, hres, _⟩ | ⟨news, hres, hdrv⟩
  · rw [hres]
    exact hpres_nodup
  · rw [hres]
    dsimp only
    have hperm : (sortByKeyCmp cmp (preserveExistingTranslations
        (filterValidRecords sourceMap existingRecords) sourceMap ++ news)).Perm
        (preserveExistingTranslations
          (filterValidRecords sourceMap existingRecords) sourceMap ++ news) :=
      List.perm_insertionSort _ _
    rw [List.Perm.nodup_iff (List.Perm.map _ hperm)]
    have hnews_keys : news.map (fun r => r.key)
        = (identifyTranslationCandidates sourceMap
            (buildTargetMap existingRecords)).map (fun c => c.key) := by
      rcases hdrv with ⟨_, hexec⟩ | ⟨hlen, hnil, _⟩
      · exact executeTranslations_keys_complete hcomplete hexec
      · rw [hnil, List.length_eq_zero.mp hlen]
        simp
    rw [List.map_append, List.nodup_append]
    refine ⟨hpres_nodup, ?_, ?_⟩
    · rw [hnews_keys]
      exact candidates_key_nodup _ _ hnd_sm
    · intro k hkp hkn
      rcases List.mem_map.mp hkp with ⟨r, hr, hrk⟩
      rcases preserve_current hr with ⟨sr, hsr, hrh⟩
      rw [hnews_keys] at hkn
      rcases List.mem_map.mp hkn with ⟨c, hc, hck⟩
      rcases mem_identifyTranslationCandidates.mp hc with ⟨hcmem, hcond⟩
      have hcur : mapGet sourceMap c.key = some c.sourceRecord :=
        mapGet_of_mem_nodup hnd_sm hcmem
      have hkey : c.key = r.key := by rw [hck, hrk]
      rw [hkey, hsr] at hcur
      have hsr_eq : sr = c.sourceRecord := by
        injection hcur
      have hfind : mapGet (buildTargetMap existingRecords) r.key = some r := by
        rw [hlast r.key]
        have hndrev : ((existingRecords.reverse).map (fun x => x.key)).Nodup := by
          rw [List.map_reverse]
          exact List.nodup_reverse.mpr hnd_ex
        have hrrev : r ∈ existingRecords.reverse :=
          List.mem_reverse.mpr (List.Sublist.mem hr hpres_sub)
        exact find?_keyfn_self (fun x => x.key) hndrev hrrev
      unfold shouldTranslate at hcond
      rw [hkey, hfind] at hcond
      dsimp only at hcond
      rw [← hsr_eq] at hcond
      rw [hrh] at hcond
      simp at hcond

/-- Witness for C4's amended statement at a concrete run. -/
theorem record_set_unique_keys_witness :
    ((buildSourceMap [⟨"a", "A", "", "h"⟩, ⟨"b", "B", "", "g"⟩]).map
      (fun p => p.1)).Nodup ∧
    (([⟨"a", "ta", "h"⟩] : List TargetRecord).map (fun r => r.key)).Nodup ∧
    (∃ result calls,
      processTargetLanguage ⟨"es", "es.csv", []⟩
        (buildSourceMap [⟨"a", "A", "", "h"⟩, ⟨"b", "B", "", "g"⟩])
        [⟨"a", "ta", "h"⟩] batchFailTranslator cmpCodeUnit 1 = .ok (result, calls) ∧
      ((result.updatedRecords.map (fun r => r.key)).Nodup) ∧
      (∀ k, mapGet (buildTargetMap [⟨"a", "ta", "h"⟩]) k
        = ([⟨"a", "ta", "h"⟩] : List TargetRecord).reverse.find?
          (fun r => r.key == k))) := by
  refine ⟨by decide, by decide,
    ⟨⟨"es", "es.csv", []⟩, [⟨"a", "ta", "h"⟩, ⟨"b", "B!", "g"⟩], true⟩,
    [.single "B" ""], ?_⟩
  have h : processTargetLanguage ⟨"es", "es.csv", []⟩
      (buildSourceMap [⟨"a", "A", "", "h"⟩, ⟨"b", "B", "", "g"⟩])
      [⟨"a", "ta", "h"⟩] batchFailTranslator cmpCodeUnit 1
      = .ok (⟨⟨"es", "es.csv", []⟩,
          [⟨"a", "ta", "h"⟩, ⟨"b", "B!", "g"⟩], true⟩, [.single "B" ""]) := by
    decide
  rcases record_set_unique_keys (by decide) (by decide)
      (fun _ _ hok => by simp [batchFailTranslator] at hok) h with ⟨h1, h2⟩
  exact ⟨h, h1, h2⟩

theorem collectBatchRecords_failed :
    ∀ {chunk : List TranslationCandidate} {m : List (String × String)},
    (∃ c ∈ chunk, mapGet m c.key = none ∨ mapGet m c.key = some "") →
    (collectBatchRecords chunk m).2 = true := by
  intro chunk
  induction chunk with
  | nil =>
    intro m h
    rcases h with ⟨c, hc, _⟩
    simp at hc
  | cons d rest ih =>
    intro m h
    unfold collectBatchRecords
    rcases hm : mapGet m d.key with _ | t
    · dsimp only
    · dsimp only
      rcases he : (t == "") with _ | _
      · simp only [Bool.false_eq_true, if_false]
        rcases hcol : collectBatchRecords rest m with ⟨recs', failed'⟩
        dsimp only
        rcases h with ⟨c, hc, hdef⟩
        rcases List.mem_cons.mp hc with heq | hmem
        · exfalso
          rw [← heq] at hm
          rcases hdef with hnone | hempty
          · rw [hm] at hnone
            simp at hnone
          · rw [hm] at hempty
            simp only [Option.some.injEq] at hempty
            rw [hempty] at he
            simp at he
        · have := ih ⟨c, hmem, hdef⟩
          rw [hcol] at this
          exact this
      · simp

theorem runChunk_fail (tr : Translator) (f : String → String → String)
    (cs chunk : List TranslationCandidate)
    (hnd : (cs.map (fun c => c.key)).Nodup) (hsub : ∀ c ∈ chunk, c ∈ cs)
    (htr : ∀ t d, tr.translate t d = .ok (f t d))
    (hfail : batchCallFails tr chunk) :
    ∃ recs0, runChunk tr cs chunk
      = .ok (recs0 ++ chunk.map (fun c => ⟨c.key,
          f c.sourceRecord.text c.sourceRecord.description, c.sourceRecord.hash⟩),
        .batch (chunk.map toBatchRequest)
          :: chunk.map (fun c =>
            .single c.sourceRecord.text c.sourceRecord.description)) := by
  rcases hfail with ⟨e, hb⟩ | ⟨m, hb, hdef⟩
  · refine ⟨[], ?_⟩
    rw [runChunk_batchError tr f cs chunk hnd hsub hb htr]
    simp
  · have hflag : (collectBatchRecords chunk m).2 = true :=
      collectBatchRecords_failed hdef
    rcases hcol : collectBatchRecords chunk m with ⟨recs0, flag⟩
    rw [hcol] at hflag
    dsimp only at hflag
    subst hflag
    refine ⟨recs0, ?_⟩
    unfold runChunk
    dsimp only
    rw [hb]
    dsimp only
    rw [hcol]
    dsimp only
    rw [if_pos rfl, runFallback_eval tr f htr cs hnd chunk hsub]

theorem translateInBatchesAux_success {tr : Translator}
    {cs : List TranslationCandidate} {bs : Nat} :
    ∀ (cs' : List TranslationCandidate),
    (∀ ch ∈ chunkList bs cs', batchCallSucceeds tr ch) →
    ∃ recs, translateInBatchesAux tr cs bs cs'
      = .ok (recs, successTrace (chunkList bs cs')) := by
  have main : ∀ (n : Nat) (cs' : List TranslationCandidate), cs'.length ≤ n →
      (∀ ch ∈ chunkList bs cs', batchCallSucceeds tr ch) →
      ∃ recs, translateInBatchesAux tr cs bs cs'
        = .ok (recs, successTrace (chunkList bs cs')) := by
    intro n
    induction n with
    | zero =>
      intro cs' hlen _
      have : cs' = [] := List.length_eq_zero.mp (Nat.le_zero.mp hlen)
      subst this
      refine ⟨[], ?_⟩
      simp [translateInBatchesAux, chunkList, successTrace]
    | succ n ih =>
      intro cs' hlen hsucc
      match cs' with
      | [] =>
        refine ⟨[], ?_⟩
        simp [translateInBatchesAux, chunkList, successTrace]
      | c :: rest =>
        have hchunks : chunkList bs (c :: rest)
            = (c :: rest.take (bs - 1)) :: chunkList bs (rest.drop (bs - 1)) := by
          simp only [chunkList]
        rcases hsucc _ (by rw [hchunks]; exact List.mem_cons_self _ _) with
          ⟨m, hb, hall⟩
        have hlen' : (rest.drop (bs - 1)).length ≤ n := by
          simp only [List.length_cons] at hlen
          simp only [List.length_drop]
          omega
        rcases ih (rest.drop (bs - 1)) hlen'
            (fun ch hch => hsucc ch (by rw [hchunks]; exact List.mem_cons_of_mem _ hch))
          with ⟨recs', hrec'⟩
        refine ⟨(c :: rest.take (bs - 1)).map (fun x =>
          ⟨x.key, (mapGet m x.key).getD "", x.sourceRecord.hash⟩) ++ recs', ?_⟩
        unfold translateInBatchesAux
        rw [runChunk_success tr cs _ hb hall]
        dsimp only
        rw [hrec']
        dsimp only
        rw [hchunks]
        simp [successTrace]
  exact fun cs' hsucc => main cs'.length cs' (Nat.le_refl _) hsucc

theorem translateInBatchesAux_fallback {tr : Translator}
    {cs : List TranslationCandidate} {bs : Nat} (f : String → String → String)
    (hnd : (cs.map (fun c => c.key)).Nodup)
    (htr : ∀ t d, tr.translate t d = .ok (f t d)) :
    ∀ (cs' : List TranslationCandidate) (j : Nat), (∀ c ∈ cs', c ∈ cs) →
    (∀ i ch, i ≠ j → (chunkList bs cs')[i]? = some ch → batchCallSucceeds tr ch) →
    (∀ ch, (chunkList bs cs')[j]? = some ch → batchCallFails tr ch) →
    ∃ recs, translateInBatchesAux tr cs bs cs'
        = .ok (recs, fallbackTrace j (chunkList bs cs')) ∧
      ∀ ch, (chunkList bs cs')[j]? = some ch → ∀ c ∈ ch,
        (⟨c.key, f c.sourceRecord.text c.sourceRecord.description,
          c.sourceRecord.hash⟩ : TargetRecord) ∈ recs := by
  have main : ∀ (n : Nat) (cs' : List TranslationCandidate) (j : Nat),
      cs'.length ≤ n → (∀ c ∈ cs', c ∈ cs) →
      (∀ i ch, i ≠ j → (chunkList bs cs')[i]? = some ch → batchCallSucceeds tr ch) →
      (∀ ch, (chunkList bs cs')[j]? = some ch → batchCallFails tr ch) →
      ∃ recs, translateInBatchesAux tr cs bs cs'
          = .ok (recs, fallbackTrace j (chunkList bs cs')) ∧
        ∀ ch, (chunkList bs cs')[j]? = some ch → ∀ c ∈ ch,
          (⟨c.key, f c.sourceRecord.text c.sourceRecord.description,
            c.sourceRecord.hash⟩ : TargetRecord) ∈ recs := by
    intro n
    induction n with
    | zero =>
      intro cs' j hlen _ _ _
      have : cs' = [] := List.length_eq_zero.mp (Nat.le_zero.mp hlen)
      subst this
      refine ⟨[], ?_, ?_⟩
      · simp [translateInBatchesAux, chunkList, fallbackTrace]
      · intro ch hch
        simp [chunkList] at hch
    | succ n ih =>
      intro cs' j hlen hsub hok hfail
      match cs' with
      | [] =>
        refine ⟨[], ?_, ?_⟩
        · simp [translateInBatchesAux, chunkList, fallbackTrace]
        · intro ch hch
          simp [chunkList] at hch
      | c :: rest =>
        have hchunks : chunkList bs (c :: rest)
            = (c :: rest.take (bs - 1)) :: chunkList bs (rest.drop (bs - 1)) := by
          simp only [chunkList]
        have hsubchunk : ∀ x ∈ c :: rest.take (bs - 1), x ∈ cs := by
          intro x hx
          rcases List.mem_cons.mp hx with heq | hmem
          · rw [heq]; exact hsub c (List.mem_cons_self _ _)
          · exact hsub x (List.mem_cons_of_mem _ (List.take_subset _ _ hmem))
        have hsub' : ∀ x ∈ rest.drop (bs - 1), x ∈ cs := fun x hx =>
          hsub x (List.mem_cons_of_mem _ (List.drop_subset _ _ hx))
        have hlen' : (rest.drop (bs - 1)).length ≤ n := by
          simp only [List.length_cons] at hlen
          simp only [List.length_drop]
          omega
        match j with
        | 0 =>
          have hfailchunk : batchCallFails tr (c :: rest.take (bs - 1)) := by
            apply hfail
            rw [hchunks]
            simp
          rcases runChunk_fail tr f cs _ hnd hsubchunk htr hfailchunk with
            ⟨recs0, hrun⟩
          have hsucc' : ∀ ch ∈ chunkList bs (rest.drop (bs - 1)),
              batchCallSucceeds tr ch := by
            intro ch hch
            rcases List.mem_iff_getElem?.mp hch with ⟨i, hi⟩
            refine hok (i + 1) ch (by omega) ?_
            rw [hchunks]
            simpa using hi
          rcases translateInBatchesAux_success (rest.drop (bs - 1)) hsucc' with
            ⟨recs', hrec'⟩
          refine ⟨(recs0 ++ (c :: rest.take (bs - 1)).map (fun x => ⟨x.key,
              f x.sourceRecord.text x.sourceRecord.description,
              x.sourceRecord.hash⟩)) ++ recs', ?_, ?_⟩
          · unfold translateInBatchesAux
            rw [hrun]
            dsimp only
            rw [hrec']
            dsimp only
            rw [hchunks]
            simp only [fallbackTrace]
          · intro ch hch c' hc'
            rw [hchunks] at hch
            simp only [List.getElem?_cons_zero, Option.some.injEq] at hch
            subst hch
            apply List.mem_append.mpr
            apply Or.inl
            apply List.mem_append.mpr
            apply Or.inr
            exact List.mem_map.mpr ⟨c', hc', rfl⟩
        | j' + 1 =>
          have hsuccchunk : batchCallSucceeds tr (c :: rest.take (bs - 1)) := by
            apply hok 0 _ (by omega)
            rw [hchunks]
            simp
          rcases hsuccchunk with ⟨m, hb, hall⟩
          rcases ih (rest.drop (bs - 1)) j' hlen' hsub'
              (fun i ch hi hch => hok (i + 1) ch (by omega)
                (by rw [hchunks]; simpa using hch))
              (fun ch hch => hfail ch (by rw [hchunks]; simpa using hch)) with
            ⟨recs', hrec', hmem'⟩
          refine ⟨(c :: rest.take (bs - 1)).map (fun x =>
              ⟨x.key, (mapGet m x.key).getD "", x.sourceRecord.hash⟩) ++ recs',
            ?_, ?_⟩
          · unfold translateInBatchesAux
            rw [runChunk_success tr cs _ hb hall]
            dsimp only
            rw [hrec']
            dsimp only
            rw [hchunks]
            simp [fallbackTrace]
          · intro ch hch c' hc'
            rw [hchunks] at hch
            simp only [List.getElem?_cons_succ] at hch
            exact List.mem_append.mpr (Or.inr (hmem' ch hch c' hc'))
  exact fun cs' j hsub hok hfail => main cs'.length cs' j (Nat.le_refl _) hsub hok hfail

/-- C3: if the batch call for the chunk at index `j` throws, or omits a
requested key (the driver treats a missing or empty translation as a
failure of the whole chunk), while every other chunk's batch call succeeds,
then every member of that specific chunk is translated individually via
`translate` and appears in the final output; the trace shows the successful
chunks making exactly their one batch call each (no retranslation) and the
failing chunk making its batch call plus one individual call per member;
every candidate appears in the output. If instead the batch call fails and
an individual fallback translation itself fails, the error propagates and
aborts that target language's run. -/
theorem batch_fallback (tr : Translator) (f : String → String → String)
    (cs : List TranslationCandidate) (bs : Nat) (j : Nat)
    (hnd : (cs.map (fun c => c.key)).Nodup)
    (htr : ∀ t d, tr.translate t d = .ok (f t d))
    (hok : ∀ i ch, i ≠ j → (chunkList bs cs)[i]? = some ch →
      batchCallSucceeds tr ch)
    (hfail : ∀ ch, (chunkList bs cs)[j]? = some ch → batchCallFails tr ch) :
    (∃ recs, translateInBatches tr bs cs
        = .ok (recs, fallbackTrace j (chunkList bs cs)) ∧
      (∀ ch, (chunkList bs cs)[j]? = some ch → ∀ c ∈ ch,
        (⟨c.key, f c.sourceRecord.text c.sourceRecord.description,
          c.sourceRecord.hash⟩ : TargetRecord) ∈ recs) ∧
      (∀ c ∈ cs, ∃ r ∈ recs, r.key = c.key ∧ r.hash = c.sourceRecord.hash)) ∧
    (∀ (tr2 : Translator) (eb et : TrError),
      (∀ reqs, tr2.translateBatch reqs = .error eb) →
      (∀ t d, tr2.translate t d = .error et) →
      cs ≠ [] → translateInBatches tr2 bs cs = .error et) := by
  constructor
  · rcases translateInBatchesAux_fallback f hnd htr cs j (fun _ h => h) hok hfail with
      ⟨recs, heq, hmem⟩
    refine ⟨recs, heq, hmem, ?_⟩
    exact (translateInBatchesAux_spec hnd cs (fun _ h => h) heq).2
  · intro tr2 eb et hb2 ht2 hne
    match cs with
    | [] => exact absurd rfl hne
    | c :: rest =>
      have hrc : runChunk tr2 (c :: rest) (c :: rest.take (bs - 1)) = .error et := by
        unfold runChunk
        dsimp only
        rw [hb2]
        dsimp only
        rw [List.map_cons]
        unfold runFallback
        dsimp only [toBatchRequest]
        rw [find?_cons, if_pos (by simp)]
        dsimp only
        rw [ht2]
      unfold translateInBatches translateInBatchesAux
      rw [hrc]

/-- Witness for C3: three candidates, batch size 2; the first chunk's batch
call fails and is retried individually, the second chunk succeeds in one
batch call; and an all-failing backend aborts the run. -/
theorem batch_fallback_witness :
    ((([⟨"a", ⟨"a", "A", "", "ha"⟩⟩, ⟨"b", ⟨"b", "B", "", "hb"⟩⟩,
        ⟨"c", ⟨"c", "C", "", "hc"⟩⟩] : List TranslationCandidate).map
      (fun c => c.key)).Nodup) ∧
    (∃ recs, translateInBatches mixedBatchTranslator 2
        [⟨"a", ⟨"a", "A", "", "ha"⟩⟩, ⟨"b", ⟨"b", "B", "", "hb"⟩⟩,
          ⟨"c", ⟨"c", "C", "", "hc"⟩⟩]
        = .ok (recs, fallbackTrace 0 (chunkList 2
            ([⟨"a", ⟨"a", "A", "", "ha"⟩⟩, ⟨"b", ⟨"b", "B", "", "hb"⟩⟩,
              ⟨"c", ⟨"c", "C", "", "hc"⟩⟩] : List TranslationCandidate))) ∧
      (∀ ch, (chunkList 2 ([⟨"a", ⟨"a", "A", "", "ha"⟩⟩,
          ⟨"b", ⟨"b", "B", "", "hb"⟩⟩, ⟨"c", ⟨"c", "C", "", "hc"⟩⟩]
            : List TranslationCandidate))[0]?
          = some ch → ∀ c ∈ ch,
        (⟨c.key, c.sourceRecord.text ++ "!", c.sourceRecord.hash⟩
          : TargetRecord) ∈ recs) ∧
      (∀ c ∈ ([⟨"a", ⟨"a", "A", "", "ha"⟩⟩, ⟨"b", ⟨"b", "B", "", "hb"⟩⟩,
          ⟨"c", ⟨"c", "C", "", "hc"⟩⟩] : List TranslationCandidate),
        ∃ r ∈ recs, r.key = c.key ∧ r.hash = c.sourceRecord.hash)) ∧
    translateInBatches errTranslator 2
      [⟨"a", ⟨"a", "A", "", "ha"⟩⟩, ⟨"b", ⟨"b", "B", "", "hb"⟩⟩,
        ⟨"c", ⟨"c", "C", "", "hc"⟩⟩] = .error (.backend "down") := by
  have hchunks : chunkList 2 ([⟨"a", ⟨"a", "A", "", "ha"⟩⟩,
      ⟨"b", ⟨"b", "B", "", "hb"⟩⟩, ⟨"c", ⟨"c", "C", "", "hc"⟩⟩]
        : List TranslationCandidate)
      = [[⟨"a", ⟨"a", "A", "", "ha"⟩⟩, ⟨"b", ⟨"b", "B", "", "hb"⟩⟩],
        [⟨"c", ⟨"c", "C", "", "hc"⟩⟩]] := by
    simp [chunkList]
  have hmain := batch_fallback mixedBatchTranslator (fun t _ => t ++ "!")
    [⟨"a", ⟨"a", "A", "", "ha"⟩⟩, ⟨"b", ⟨"b", "B", "", "hb"⟩⟩,
      ⟨"c", ⟨"c", "C", "", "hc"⟩⟩] 2 0
    (by decide) (fun _ _ => rfl)
    (by
      intro i ch hi hch
      rw [hchunks] at hch
      match i with
      | 0 => exact absurd rfl hi
      | 1 =>
        simp only [List.getElem?_cons_succ, List.getElem?_cons_zero,
          Option.some.injEq] at hch
        rw [← hch]
        exact ⟨[("c", "C!")], by decide, by decide⟩
      | Nat.succ (Nat.succ i) =>
        simp at hch)
    (by
      intro ch hch
      rw [hchunks] at hch
      simp only [List.getElem?_cons_zero, Option.some.injEq] at hch
      rw [← hch]
      exact Or.inl ⟨.backend "boom", by decide⟩)
  exact ⟨by decide, hmain.1,
    hmain.2 errTranslator (.backend "down") (.backend "down")
      (fun _ => rfl) (fun _ _ => rfl) (by decide)⟩

theorem mapGet_batch_result (f : String → String → String) :
    ∀ {cs : List TranslationCandidate}, ((cs.map (fun c => c.key)).Nodup) →
    ∀ {c : TranslationCandidate}, c ∈ cs →
    mapGet ((cs.map toBatchRequest).map (fun r => (r.key, f r.text r.description)))
        c.key
      = some (f c.sourceRecord.text c.sourceRecord.description) := by
  intro cs
  induction cs with
  | nil =>
    intro _ c hc
    simp at hc
  | cons d rest ih =>
    intro hnd c hc
    simp only [List.map_cons]
    rw [mapGet_cons]
    rcases List.mem_cons.mp hc with heq | hmem
    · subst heq
      rw [if_pos (by simp [toBatchRequest])]
      rfl
    · simp only [List.map_cons, List.nodup_cons] at hnd
      have hne : d.key ≠ c.key := fun h =>
        hnd.1 (h ▸ List.mem_map.mpr ⟨c, hmem, rfl⟩)
      rw [if_neg (by simpa [toBatchRequest] using hne)]
      exact ih hnd.2 hmem

/-- C6: for every candidate list of length N and a backend whose batch
results agree with its individual results (`translateBatch` returning
exactly the `translate` outputs for its requested keys, all nonempty as the
real Translator guarantees), running the driver with batchSize = 1 and with
batchSize = N produces identical final TargetRecord lists - same keys, same
translated text, same hash per key - differing only in the backend calls
made. -/
theorem batch_size_equivalence (tr : Translator) (f : String → String → String)
    (cs : List TranslationCandidate)
    (hnd : (cs.map (fun c => c.key)).Nodup)
    (htr : ∀ t d, tr.translate t d = .ok (f t d))
    (hbatch : ∀ reqs, tr.translateBatch reqs
      = .ok (reqs.map (fun r => (r.key, f r.text r.description))))
    (hne : ∀ t d, f t d ≠ "") :
    ∃ recs calls1 callsN,
      executeTranslations tr 1 cs = .ok (recs, calls1) ∧
      executeTranslations tr cs.length cs = .ok (recs, callsN) := by
  have hind : executeTranslations tr 1 cs
      = .ok (cs.map (fun c => ⟨c.key,
          f c.sourceRecord.text c.sourceRecord.description, c.sourceRecord.hash⟩),
        cs.map (fun c =>
          .single c.sourceRecord.text c.sourceRecord.description)) := by
    unfold executeTranslations
    rw [if_pos rfl]
    exact translateIndividually_eval tr f htr cs
  by_cases hlen : cs.length = 1
  · refine ⟨cs.map (fun c => ⟨c.key,
        f c.sourceRecord.text c.sourceRecord.description, c.sourceRecord.hash⟩),
      cs.map (fun c => .single c.sourceRecord.text c.sourceRecord.description),
      cs.map (fun c => .single c.sourceRecord.text c.sourceRecord.description),
      hind, ?_⟩
    rw [hlen]
    exact hind
  · match cs, hnd, hind with
    | [], hnd, hind =>
      refine ⟨[], [], [], hind, ?_⟩
      unfold executeTranslations
      rw [if_neg hlen]
      unfold translateInBatches
      simp [translateInBatchesAux]
    | c :: rest, hnd, hind =>
      refine ⟨(c :: rest).map (fun x => ⟨x.key,
          f x.sourceRecord.text x.sourceRecord.description, x.sourceRecord.hash⟩),
        (c :: rest).map (fun x =>
          .single x.sourceRecord.text x.sourceRecord.description),
        [.batch ((c :: rest).map toBatchRequest)], hind, ?_⟩
      unfold executeTranslations
      rw [if_neg hlen]
      unfold translateInBatches
      unfold translateInBatchesAux
      have htake : rest.take ((c :: rest).length - 1) = rest := by simp
      have hdrop : rest.drop ((c :: rest).length - 1) = [] := by simp
      rw [htake, hdrop]
      have hall : ∀ x ∈ c :: rest, ∃ t,
          mapGet (((c :: rest).map toBatchRequest).map
            (fun r => (r.key, f r.text r.description))) x.key
          = some t ∧ t ≠ "" := by
        intro x hx
        exact ⟨_, mapGet_batch_result f hnd hx, hne _ _⟩
      rw [runChunk_success tr (c :: rest) (c :: rest) (hbatch _) hall]
      dsimp only
      rw [show translateInBatchesAux tr (c :: rest) (c :: rest).length []
        = .ok ([], []) from by simp [translateInBatchesAux]]
      dsimp only
      rw [List.append_nil, List.append_nil]
      have hmapeq : (c :: rest).map (fun x => (⟨x.key,
          (mapGet (((c :: rest).map toBatchRequest).map
            (fun r => (r.key, f r.text r.description))) x.key).getD "",
          x.sourceRecord.hash⟩ : TargetRecord))
          = (c :: rest).map (fun x => ⟨x.key,
            f x.sourceRecord.text x.sourceRecord.description,
            x.sourceRecord.hash⟩) := by
        apply List.map_congr_left
        intro x hx
        rw [mapGet_batch_result f hnd hx]
        rfl
      rw [hmapeq]

/-- Witness for C6 at two concrete candidates. -/
theorem batch_size_equivalence_witness :
    ((([⟨"a", ⟨"a", "A", "", "ha"⟩⟩, ⟨"b", ⟨"b", "B", "", "hb"⟩⟩]
      : List TranslationCandidate).map (fun c => c.key)).Nodup) ∧
    (∃ recs calls1 callsN,
      executeTranslations (okTranslator (fun t _ => t ++ "@")) 1
        [⟨"a", ⟨"a", "A", "", "ha"⟩⟩, ⟨"b", ⟨"b", "B", "", "hb"⟩⟩]
        = .ok (recs, calls1) ∧
      executeTranslations (okTranslator (fun t _ => t ++ "@"))
        ([⟨"a", ⟨"a", "A", "", "ha"⟩⟩, ⟨"b", ⟨"b", "B", "", "hb"⟩⟩]
          : List TranslationCandidate).length
        [⟨"a", ⟨"a", "A", "", "ha"⟩⟩, ⟨"b", ⟨"b", "B", "", "hb"⟩⟩]
        = .ok (recs, callsN)) :=
  ⟨by decide,
    batch_size_equivalence (okTranslator (fun t _ => t ++ "@")) (fun t _ => t ++ "@")
      [⟨"a", ⟨"a", "A", "", "ha"⟩⟩, ⟨"b", ⟨"b", "B", "", "hb"⟩⟩]
      (by decide) (fun _ _ => rfl) (fun _ => rfl)
      (fun t _ h => by
        have hd := congrArg String.data h
        simp [String.data_append] at hd)⟩

/-- C2 counterexample: the claim fails for a backend translation the real
Translator can produce.  The first run translates "A" to a single space and
succeeds; `readTargetCsv` trims every column and skips rows whose text trims
to empty, so the written record is dropped on re-read, the key is a
candidate again on the second run, and a second run whose every backend
call errors now errors instead of reporting `hasChanges = false`. -/
theorem second_run_counterexample :
    processTargetLanguage ⟨"es", "es.csv", []⟩
        (buildSourceMap [⟨"k", "A", "", "aa"⟩]) [] blankTranslator cmpCodeUnit 1
      = .ok (⟨⟨"es", "es.csv", []⟩, [⟨"k", " ", "aa"⟩], true⟩, [.single "A" ""]) ∧
    readTargetCsvBack [⟨"k", " ", "aa"⟩] = [] ∧
    processTargetLanguage ⟨"es", "es.csv", []⟩
        (buildSourceMap [⟨"k", "A", "", "aa"⟩])
        (readTargetCsvBack [⟨"k", " ", "aa"⟩]) errTranslator cmpCodeUnit 1
      = .error (.backend "down") :=
  ⟨by decide, by decide, by decide⟩

/-- C2 (amended): if the first run succeeds and every record it writes has
text that does not trim to the empty string (and the source records are
CSV-reader-shaped: keys and stored hashes are trim-invariant, keys
nonempty), then a second run over the re-read target file reports
`hasChanges = false`, makes no backend call (the trace is empty and the
result does not depend on the second run's backend, which may error on
every call), and raises no error. -/
theorem second_run_noop (target : TargetLanguageConfig)
    (sourceMap : List (String × SourceRecord)) (existing1 : List TargetRecord)
    (tr1 : Translator) (cmp : String → String → Int) (batchSize : Nat)
    (result1 : ProcessingResult) (calls1 : List BackendCall)
    (hnd : (sourceMap.map (fun p => p.1)).Nodup)
    (Hk : ∀ k, (mapGet sourceMap k).isSome → jsTrim k = k ∧ k ≠ "")
    (Hh : ∀ k sr, mapGet sourceMap k = some sr → jsTrim sr.hash = sr.hash)
    (hrun1 : processTargetLanguage target sourceMap existing1 tr1 cmp batchSize
      = .ok (result1, calls1))
    (Htext : ∀ r ∈ result1.updatedRecords, jsTrim r.text ≠ "") :
    ∀ (tr2 : Translator) (cmp2 : String → String → Int) (batchSize2 : Nat),
      processTargetLanguage target sourceMap
          (readTargetCsvBack result1.updatedRecords) tr2 cmp2 batchSize2
        = .ok (⟨target, preserveExistingTranslations
            (filterValidRecords sourceMap
              (readTargetCsvBack result1.updatedRecords)) sourceMap, false⟩, []) := by
  intro tr2 cmp2 batchSize2
  have hcur := processTargetLanguage_current hnd hrun1
  have hcov := processTargetLanguage_coverage hnd hrun1
  -- every surviving re-read record is current
  have hE2cur : ∀ r' ∈ readTargetCsvBack result1.updatedRecords,
      ∃ sr, mapGet sourceMap r'.key = some sr ∧ r'.hash = sr.hash := by
    intro r' hr'
    rcases List.mem_filterMap.mp hr' with ⟨r, hr, hrow⟩
    unfold readTargetCsvRow at hrow
    rcases hcond : (jsTrim r.key == "" || jsTrim r.text == "") with _ | _
    · rw [hcond] at hrow
      simp only [Bool.false_eq_true, if_false, Option.some.injEq] at hrow
      rcases hcur r hr with ⟨sr, hsr, hrh⟩
      have hkt : jsTrim r.key = r.key := (Hk r.key (by rw [hsr]; rfl)).1
      refine ⟨sr, ?_, ?_⟩
      · rw [← hrow]
        dsimp only
        rw [hkt]
        exact hsr
      · rw [← hrow]
        dsimp only
        rw [hrh, Hh r.key sr hsr]
    · rw [hcond] at hrow
      simp at hrow
  -- every written record survives the re-read with its key and hash intact
  have hsurvive : ∀ r ∈ result1.updatedRecords,
      ∃ r' ∈ readTargetCsvBack result1.updatedRecords,
        r'.key = r.key ∧ r'.hash = jsTrim r.hash := by
    intro r hr
    rcases hcur r hr with ⟨sr, hsr, _⟩
    have hkt : jsTrim r.key = r.key := (Hk r.key (by rw [hsr]; rfl)).1
    have hkne : r.key ≠ "" := (Hk r.key (by rw [hsr]; rfl)).2
    have hrow : readTargetCsvRow r
        = some ⟨jsTrim r.key, jsTrim r.text, jsTrim r.hash⟩ := by
      unfold readTargetCsvRow
      rw [if_neg ?_]
      simp only [Bool.or_eq_true, not_or]
      constructor
      · simp [hkt, hkne]
      · simpa using Htext r hr
    exact ⟨⟨jsTrim r.key, jsTrim r.text, jsTrim r.hash⟩,
      List.mem_filterMap.mpr ⟨r, hr, hrow⟩, by dsimp only; rw [hkt], rfl⟩
  -- no removals on the second run
  have hrem : removedCountOf sourceMap (readTargetCsvBack result1.updatedRecords)
      = 0 := by
    unfold removedCountOf
    rw [List.length_eq_zero]
    rw [List.filter_eq_nil]
    intro r' hr'
    rcases hE2cur r' hr' with ⟨sr, hsr, _⟩
    simp [hsr]
  -- no candidates on the second run
  have hcand : identifyTranslationCandidates sourceMap
      (buildTargetMap (readTargetCsvBack result1.updatedRecords)) = [] := by
    unfold identifyTranslationCandidates
    rw [List.map_eq_nil, List.filter_eq_nil]
    intro p hp
    have hget : mapGet sourceMap p.1 = some p.2 := mapGet_of_mem_nodup hnd hp
    rcases hcov p.1 p.2 hget with ⟨r, hr, hrk, hrh⟩
    rcases hsurvive r hr with ⟨r', hr', hrk', hrh'⟩
    have hhash : jsTrim r.hash = r.hash := by
      rw [hrh]
      exact Hh p.1 p.2 hget
    have hr'head : r'.hash = p.2.hash := by
      rw [hrh', hhash, hrh]
    have hsome : (mapGet (buildTargetMap
        (readTargetCsvBack result1.updatedRecords)) p.1).isSome := by
      rw [show mapGet (buildTargetMap (readTargetCsvBack result1.updatedRecords)) p.1
          = mapGet (buildMapBy (fun x : TargetRecord => x.key)
            (readTargetCsvBack result1.updatedRecords)) p.1 from rfl]
      rw [mapGet_buildMapBy_isSome]
      exact ⟨r', hr', by rw [hrk', hrk]⟩
    rcases hget2 : mapGet (buildTargetMap
        (readTargetCsvBack result1.updatedRecords)) p.1 with _ | er
    · rw [hget2] at hsome
      simp at hsome
    · have her : er ∈ readTargetCsvBack result1.updatedRecords ∧ er.key = p.1 :=
        mapGet_buildMapBy_some hget2
      rcases hE2cur er her.1 with ⟨sr', hsr', herh⟩
      rw [her.2, hget] at hsr'
      have : sr' = p.2 := by injection hsr' with h; exact h.symm
      rw [this] at herh
      unfold shouldTranslate
      rw [hget2]
      dsimp only
      rw [herh]
      simp
  unfold processTargetLanguage
  rw [if_pos ⟨by rw [hcand]; rfl, hrem⟩]

/-- Witness for C2's amended statement: a concrete first run followed by a
second run against an all-failing backend. -/
theorem second_run_noop_witness :
    processTargetLanguage ⟨"es", "es.csv", []⟩
        (buildSourceMap [⟨"k", "A", "", "aa"⟩]) []
        (okTranslator (fun t _ => t ++ "T")) cmpCodeUnit 1
      = .ok (⟨⟨"es", "es.csv", []⟩, [⟨"k", "AT", "aa"⟩], true⟩, [.single "A" ""]) ∧
    processTargetLanguage ⟨"es", "es.csv", []⟩
        (buildSourceMap [⟨"k", "A", "", "aa"⟩])
        (readTargetCsvBack [⟨"k", "AT", "aa"⟩]) errTranslator cmpCodeUnit 15
      = .ok (⟨⟨"es", "es.csv", []⟩, preserveExistingTranslations
          (filterValidRecords (buildSourceMap [⟨"k", "A", "", "aa"⟩])
            (readTargetCsvBack [⟨"k", "AT", "aa"⟩]))
          (buildSourceMap [⟨"k", "A", "", "aa"⟩]), false⟩, []) := by
  have h1 : processTargetLanguage ⟨"es", "es.csv", []⟩
      (buildSourceMap [⟨"k", "A", "", "aa"⟩]) []
      (okTranslator (fun t _ => t ++ "T")) cmpCodeUnit 1
      = .ok (⟨⟨"es", "es.csv", []⟩, [⟨"k", "AT", "aa"⟩], true⟩, [.single "A" ""]) := by
    decide
  refine ⟨h1, ?_⟩
  have Hk : ∀ k, (mapGet (buildSourceMap [⟨"k", "A", "", "aa"⟩]) k).isSome →
      jsTrim k = k ∧ k ≠ "" := by
    intro k hk
    rcases (mapGet_buildMapBy_isSome (fun r : SourceRecord => r.key)
        [⟨"k", "A", "", "aa"⟩] k).mp hk with ⟨r, hr, hkey⟩
    rcases List.mem_singleton.mp hr with rfl
    rw [← hkey]
    exact ⟨by decide, by decide⟩
  have Hh : ∀ k sr, mapGet (buildSourceMap [⟨"k", "A", "", "aa"⟩]) k = some sr →
      jsTrim sr.hash = sr.hash := by
    intro k sr hsr
    rcases mapGet_buildMapBy_some hsr with ⟨hmem, _⟩
    rcases List.mem_singleton.mp hmem with rfl
    decide
  exact second_run_noop ⟨"es", "es.csv", []⟩ _ [] _ cmpCodeUnit 1 _ _
    (by decide) Hk Hh h1 (by decide) errTranslator cmpCodeUnit 15

/-- Each successful `Promise.all` fan-out yields exactly one result per
target language. -/
theorem processAllTargets_length (sourceMap : List (String × SourceRecord))
    (trFor : String → Translator) (cmp : String → String → Int) (batchSize : Nat) :
    ∀ (targets : List (TargetLanguageConfig × List TargetRecord))
      (results : List (ProcessingResult × List BackendCall)),
      processAllTargets sourceMap trFor cmp batchSize targets = .ok results →
      results.length = targets.length := by
  intro targets
  induction targets with
  | nil =>
    intro results h
    simp only [processAllTargets] at h
    injection h with h
    rw [← h]
    rfl
  | cons t rest ih =>
    intro results h
    obtain ⟨tg, ex⟩ := t
    unfold processAllTargets at h
    split at h
    · exact Except.noConfusion h
    · split at h
      · exact Except.noConfusion h
      · next rcs hrcs =>
        injection h with h
        rw [← h]
        simp [ih rcs hrcs]

/-- C8 (write barrier): a successful run's event trace is all the
per-language computation events - one per target language - followed by all
the file-write events; no write event precedes any language's computation. -/
theorem write_barrier (sourceOutputs : List OutputSpec)
    (sourceRecords : List SourceRecord)
    (targets : List (TargetLanguageConfig × List TargetRecord))
    (trFor : String → Translator) (cmp : String → String → Int) (batchSize : Nat)
    (reg : String → Option (List StringRecord → String)) (events : List RunEvent)
    (h : autotranslate sourceOutputs sourceRecords targets trFor cmp batchSize reg
        = .ok events) :
    ∃ (results : List (ProcessingResult × List BackendCall))
      (writes : List WriteAction),
      processAllTargets (buildSourceMap sourceRecords) trFor cmp batchSize targets
          = .ok results ∧
      results.length = targets.length ∧
      events = (results.map (fun rc => RunEvent.compute rc.1.target.language rc.2))
        ++ writes.map RunEvent.write := by
  unfold autotranslate at h
  dsimp only at h
  rcases hp : processAllTargets (buildSourceMap sourceRecords) trFor cmp batchSize
      targets with e | results
  · rw [hp] at h
    exact Except.noConfusion h
  · rw [hp] at h
    dsimp only at h
    injection h with h
    refine ⟨results,
      executeSourceOutputFiles reg sourceOutputs sourceRecords
        ++ executeAllFileWrites reg (results.map (fun rc => rc.1)),
      rfl, processAllTargets_length _ _ _ _ _ _ hp, ?_⟩
    rw [← h, List.map_append, List.append_assoc]

/-- Witness for C8: a concrete successful run whose trace is the single
computation event followed by the source-output write event. -/
theorem write_barrier_witness :
    autotranslate [⟨"en.js", "js"⟩] [⟨"k", "A", "", "h"⟩]
        [(⟨"es", "es.csv", [⟨"es.js", "js"⟩]⟩, [⟨"k", "T", "h"⟩])]
        (fun _ => errTranslator) cmpCodeUnit 15
        (fun f => if f == "js" then some (fun _ => "content") else none)
      = .ok [.compute "es" [], .write (.writeOutput "en.js" "content")] ∧
    (∃ (results : List (ProcessingResult × List BackendCall))
      (writes : List WriteAction),
      processAllTargets (buildSourceMap [⟨"k", "A", "", "h"⟩])
          (fun _ => errTranslator) cmpCodeUnit 15
          [(⟨"es", "es.csv", [⟨"es.js", "js"⟩]⟩, [⟨"k", "T", "h"⟩])]
          = .ok results ∧
      results.length
        = ([(⟨"es", "es.csv", [⟨"es.js", "js"⟩]⟩, [⟨"k", "T", "h"⟩])] :
            List (TargetLanguageConfig × List TargetRecord)).length ∧
      ([.compute "es" [], .write (.writeOutput "en.js" "content")] : List RunEvent)
        = (results.map (fun rc => RunEvent.compute rc.1.target.language rc.2))
          ++ writes.map RunEvent.write) :=
  ⟨by decide,
    write_barrier [⟨"en.js", "js"⟩] [⟨"k", "A", "", "h"⟩]
      [(⟨"es", "es.csv", [⟨"es.js", "js"⟩]⟩, [⟨"k", "T", "h"⟩])]
      (fun _ => errTranslator) cmpCodeUnit 15
      (fun f => if f == "js" then some (fun _ => "content") else none)
      [.compute "es" [], .write (.writeOutput "en.js" "content")] (by decide)⟩
